import Mathlib

/-!
Verification development for the pet-food-safety question-answering backend
(`src/app.py`).  The Python source is shallowly embedded over `List Char`:
Python strings become character lists, each `re.sub` call becomes a
leftmost-match substitution driven by a matcher translated from the concrete
regular expression of the source, and the streaming generator becomes a pure
function from its inputs (credential, upstream behaviour, question, profile)
to the list of emitted events together with its accumulation buffer and
call-attempt flags.
-/

namespace PetBack

/-- Character list of a string literal. -/
def chars (s : String) : List Char := s.data

/-- Whitespace as recognised by Python `str.strip` and the regex class `\s`
(modelled over the ASCII range: space, tab, newline, carriage return,
vertical tab, form feed). -/
def isWS (c : Char) : Bool :=
  c = ' ' || c = '\t' || c = '\n' || c = '\r' || c = '\x0b' || c = '\x0c'

/-- Drop trailing whitespace (the right half of Python `str.strip`). -/
def dropEndWS : List Char → List Char
  | [] => []
  | c :: rest => if dropEndWS rest = [] && isWS c then [] else c :: dropEndWS rest

/-- Python `str.strip()`: remove leading and trailing whitespace. -/
def pyStrip (l : List Char) : List Char := dropEndWS (List.dropWhile isWS l)

/-- Python `text.split('\n')`. -/
def splitNL : List Char → List (List Char)
  | [] => [[]]
  | c :: rest =>
    if c = '\n' then [] :: splitNL rest
    else
      match splitNL rest with
      | l :: ls => (c :: l) :: ls
      | [] => [[c]]

/-- Python `'\n'.join(...)`. -/
def joinNL : List (List Char) → List Char
  | [] => []
  | [l] => l
  | l :: ls => l ++ '\n' :: joinNL ls

/-- Python `''.join(...)`. -/
def concatAll : List (List Char) → List Char
  | [] => []
  | l :: ls => l ++ concatAll ls

/-- Boolean substring containment, Python `needle in haystack` on strings. -/
def infixB (w : List Char) : List Char → Bool
  | [] => w.isPrefixOf []
  | c :: rest => w.isPrefixOf (c :: rest) || infixB w rest

theorem infixB_iff {w : List Char} : ∀ {s : List Char}, infixB w s = true ↔ w <:+: s := by
  intro s
  induction s with
  | nil =>
    simp [infixB, List.isPrefixOf_iff_prefix]
  | cons c rest ih =>
    simp only [infixB, Bool.or_eq_true, List.isPrefixOf_iff_prefix, ih,
      List.infix_cons_iff]

/-- The three denylisted words of the thinking filter. -/
def wordThinking : List Char := chars "thinking"

/-- Second denylisted word. -/
def wordReasoning : List Char := chars "reasoning"

/-- Third denylisted word. -/
def wordRedacted : List Char := chars "redacted"

/-- Case-insensitive containment of one of the denylisted words, the
`(?:thinking|reasoning|redacted)` alternation under `re.IGNORECASE`. -/
def containsWord (s : List Char) : Bool :=
  infixB wordThinking (s.map Char.toLower) || infixB wordReasoning (s.map Char.toLower) ||
    infixB wordRedacted (s.map Char.toLower)

/-- Split a character list at the first occurrence of `x`: the part strictly
before it and the part strictly after it. -/
def splitAtCh (x : Char) : List Char → Option (List Char × List Char)
  | [] => none
  | c :: rest =>
    if c = x then some ([], rest)
    else
      match splitAtCh x rest with
      | some (b, a) => some (c :: b, a)
      | none => none

theorem splitAtCh_eq (x : Char) :
    ∀ s b a, splitAtCh x s = some (b, a) → s = b ++ x :: a ∧ x ∉ b := by
  intro s
  induction s with
  | nil => intro b a h; simp [splitAtCh] at h
  | cons c rest ih =>
    intro b a h
    by_cases hc : c = x
    · simp [splitAtCh, hc] at h
      obtain ⟨hb, ha⟩ := h
      subst hb; subst ha; subst hc
      simp
    · simp only [splitAtCh, if_neg hc] at h
      cases hrec : splitAtCh x rest with
      | none => rw [hrec] at h; simp at h
      | some p =>
        obtain ⟨b0, a0⟩ := p
        rw [hrec] at h
        simp at h
        obtain ⟨hb, ha⟩ := h
        obtain ⟨hb0, hna⟩ := ih b0 a0 hrec
        subst ha
        rw [← hb]
        constructor
        · simp [hb0]
        · simp [List.mem_cons]
          constructor
          · intro he; exact hc he.symm
          · intro he; exact hna he

theorem splitAtCh_none (x : Char) : ∀ s, splitAtCh x s = none → x ∉ s := by
  intro s
  induction s with
  | nil => intro _; simp
  | cons c rest ih =>
    intro h
    by_cases hc : c = x
    · simp [splitAtCh, hc] at h
    · simp only [splitAtCh, if_neg hc] at h
      cases hrec : splitAtCh x rest with
      | none =>
        simp [List.mem_cons]
        exact ⟨fun he => hc he.symm, fun hm => ih hrec hm⟩
      | some p => rw [hrec] at h; cases p; simp at h

theorem splitAtCh_append (x : Char) :
    ∀ b a, x ∉ b → splitAtCh x (b ++ x :: a) = some (b, a) := by
  intro b
  induction b with
  | nil => intro a _; simp [splitAtCh]
  | cons c rest ih =>
    intro a h
    have hc : ¬ c = x := by
      intro he; exact h (by simp [he])
    have hr : x ∉ rest := by
      intro hm; exact h (by simp [hm])
    simp only [List.cons_append, splitAtCh, if_neg hc, List.append_eq, ih a hr]

/-- One pass of Python `re.sub` for a pattern that can never match the empty
string.  At each position the matcher is tried; a result `(rep, k)` means the
pattern matched the next `k + 1` characters, which are replaced by `rep`, and
scanning continues after them (the replacement is not rescanned).  Otherwise
the character is kept and scanning moves one position right.  The fuel
argument makes the recursion structural; it is always run with fuel equal to
the length of the input. -/
def pySubF (m : List Char → Option (List Char × Nat)) : Nat → List Char → List Char
  | _, [] => []
  | 0, s => s
  | fuel+1, c :: rest =>
    match m (c :: rest) with
    | some (rep, k) => rep ++ pySubF m fuel (rest.drop k)
    | none => c :: pySubF m fuel rest

/-- Python `re.sub(pattern, replacement, s)` for the matcher `m`. -/
def pySub (m : List Char → Option (List Char × Nat)) (s : List Char) : List Char :=
  pySubF m s.length s

@[simp] theorem pySubF_nil (m : List Char → Option (List Char × Nat)) (f : Nat) :
    pySubF m f [] = [] := by
  cases f <;> rfl

theorem pySubF_congr (m : List Char → Option (List Char × Nat)) :
    ∀ f g s, s.length ≤ f → s.length ≤ g → pySubF m f s = pySubF m g s := by
  intro f
  induction f with
  | zero =>
    intro g s hf _
    have : s = [] := List.eq_nil_of_length_eq_zero (Nat.le_zero.mp hf)
    subst this; simp
  | succ f ih =>
    intro g s hf hg
    cases s with
    | nil => simp
    | cons c rest =>
      cases g with
      | zero => simp at hg
      | succ g =>
        simp only [pySubF]
        cases hm : m (c :: rest) with
        | some p =>
          obtain ⟨rep, k⟩ := p
          have hlen : (rest.drop k).length ≤ f := by
            simp only [List.length_drop]
            simp only [List.length_cons] at hf
            omega
          have hleng : (rest.drop k).length ≤ g := by
            simp only [List.length_drop]
            simp only [List.length_cons] at hg
            omega
          dsimp only
          rw [ih g (rest.drop k) hlen hleng]
        | none =>
          simp only [List.length_cons] at hf hg
          dsimp only
          rw [ih g rest (by omega) (by omega)]

@[simp] theorem pySub_nil (m : List Char → Option (List Char × Nat)) : pySub m [] = [] := rfl

theorem pySub_cons_none {m : List Char → Option (List Char × Nat)} {c : Char}
    {rest : List Char} (h : m (c :: rest) = none) :
    pySub m (c :: rest) = c :: pySub m rest := by
  show pySubF m (rest.length + 1) (c :: rest) = _
  simp only [pySubF, h]
  rfl

theorem pySub_cons_some {m : List Char → Option (List Char × Nat)} {c : Char}
    {rest rep : List Char} {k : Nat} (h : m (c :: rest) = some (rep, k)) :
    pySub m (c :: rest) = rep ++ pySub m (rest.drop k) := by
  show pySubF m (rest.length + 1) (c :: rest) = _
  simp only [pySubF, h]
  congr 1
  exact pySubF_congr m rest.length (rest.drop k).length (rest.drop k)
    (by simp only [List.length_drop]; omega) le_rfl

/-- A substitution whose matcher fails on every suffix leaves the text
unchanged. -/
theorem pySub_id_of_none (m : List Char → Option (List Char × Nat)) :
    ∀ s, (∀ t, t <:+ s → m t = none) → pySub m s = s := by
  intro s
  induction s with
  | nil => intro _; rfl
  | cons c rest ih =>
    intro h
    rw [pySub_cons_none (h _ (List.suffix_refl _)), ih]
    intro t ht
    exact h t (ht.trans (List.suffix_cons c rest))

/-- Matcher for the single-tag regex
`<[^>]*(?:thinking|reasoning|redacted)[^>]*/?>` (IGNORECASE): an opening `<`,
then the run up to the first `>` (which greedily absorbs the optional `/`),
which must contain a denylisted word.  The whole tag is removed. -/
def mTagSingle : List Char → Option (List Char × Nat)
  | [] => none
  | c :: rest =>
    if c = '<' then
      match splitAtCh '>' rest with
      | some (inside, _) => if containsWord inside then some ([], inside.length + 1) else none
      | none => none
    else none

/-- Lazy scan of the `.*?` gap of the paired-tag regex: the number of
characters consumed up to and including the first closing tag
`</[^>]*(?:thinking|reasoning|redacted)[^>]*>`. -/
def findClose : List Char → Option Nat
  | [] => none
  | '<' :: '/' :: rest2 =>
    (match splitAtCh '>' rest2 with
     | some (i, _) =>
       if containsWord i then some (i.length + 3)
       else (findClose ('/' :: rest2)).map (· + 1)
     | none => (findClose ('/' :: rest2)).map (· + 1))
  | _ :: rest => (findClose rest).map (· + 1)

/-- Matcher for the paired-tag regex
`<[^>]*(?:…)[^>]*>.*?</[^>]*(?:…)[^>]*>` (DOTALL, IGNORECASE): an opening tag
containing a denylisted word, then the shortest gap reaching a closing tag
containing a denylisted word.  The whole span is removed. -/
def mTagPair : List Char → Option (List Char × Nat)
  | [] => none
  | c :: rest =>
    if c = '<' then
      match splitAtCh '>' rest with
      | some (inside, after) =>
        if containsWord inside then
          match findClose after with
          | some t => some ([], inside.length + 1 + t)
          | none => none
        else none
      | none => none
    else none

/-- Embedding of `filter_thinking_content` (src/app.py lines 137-154): the
paired-tag removal followed by the single-tag removal, with the falsy-input
guard. -/
def filter_thinking_content (content : List Char) : List Char :=
  if content = [] then content
  else pySub mTagSingle (pySub mTagPair content)

/-- Characters consumed by the lazy `.*?(?=【|$)` tail of the label-stripping
regexes: up to the first `【` if one occurs, otherwise everything — except
that `$` (no MULTILINE) already matches just before a final newline, so a
single trailing newline is left in place. -/
def labelStop : List Char → Nat
  | [] => 0
  | c :: rest =>
    if c = '【' then 0
    else if rest = [] then (if c = '\n' then 0 else 1)
    else 1 + labelStop rest

/-- Matcher for `思考过程[：:].*?(?=【|$)` (DOTALL; likewise for 推理过程):
the label literal, either colon, then the lazy tail. -/
def mLabel (lab : List Char) (s : List Char) : Option (List Char × Nat) :=
  if lab.isPrefixOf s then
    match s.drop lab.length with
    | c :: rest2 =>
      if c = '：' ∨ c = ':' then some ([], lab.length + labelStop rest2) else none
    | [] => none
  else none

/-- Section marker 【风险等级】 (risk level). -/
def markerRisk : List Char := chars "【风险等级】"

/-- Section marker 【风险点】 (risk points). -/
def markerPoint : List Char := chars "【风险点】"

/-- Section marker 【喂养建议】 (feeding advice). -/
def markerAdvice : List Char := chars "【喂养建议】"

/-- Matcher for `mk:\s*` → `mk：` (ASCII-colon normalisation after a marker). -/
def mAsciiColon (mk : List Char) (s : List Char) : Option (List Char × Nat) :=
  if (mk ++ [':']).isPrefixOf s then
    let rest := s.drop (mk.length + 1)
    some (mk ++ ['：'], mk.length + (rest.takeWhile isWS).length)
  else none

/-- Matcher for `mkA[:：]?([^【]*?)mkB` → `mkA：\1\n\nmkB` (DOTALL): the first
marker, an optional colon, a bracket-free capture reaching the first `【`,
which must begin the second marker. -/
def mForce (mkA mkB : List Char) (s : List Char) : Option (List Char × Nat) :=
  if mkA.isPrefixOf s then
    let r1 := s.drop mkA.length
    let colonN : Nat :=
      match r1.head? with
      | some c => if c = ':' ∨ c = '：' then 1 else 0
      | none => 0
    match splitAtCh '【' (r1.drop colonN) with
    | some (cap, after) =>
      if mkB.isPrefixOf ('【' :: after) then
        some (mkA ++ '：' :: (cap ++ '\n' :: '\n' :: mkB),
          mkA.length + colonN + cap.length + mkB.length - 1)
      else none
    | none => none
  else none

/-- Matcher for `mk\s*[:：]\s*` → `mk：` (second colon-normalisation pass). -/
def mWsColon (mk : List Char) (s : List Char) : Option (List Char × Nat) :=
  if mk.isPrefixOf s then
    let r1 := s.drop mk.length
    let ws1 := (r1.takeWhile isWS).length
    match (r1.drop ws1).head? with
    | some c =>
      if c = ':' ∨ c = '：' then
        some (mk ++ ['：'], mk.length + ws1 + ((r1.drop (ws1 + 1)).takeWhile isWS).length)
      else none
    | none => none
  else none

/-- Matcher for `mk\s*[:：]?\s*` → `mk：` (header-line normalisation inside the
reassembly loop; the colon is optional here). -/
def mHdrLine (mk : List Char) (s : List Char) : Option (List Char × Nat) :=
  if mk.isPrefixOf s then
    let r1 := s.drop mk.length
    let ws1 := (r1.takeWhile isWS).length
    let extra : Nat :=
      match (r1.drop ws1).head? with
      | some c =>
        if c = ':' ∨ c = '：' then 1 + ((r1.drop (ws1 + 1)).takeWhile isWS).length else 0
      | none => 0
    some (mk ++ ['：'], mk.length + ws1 + extra - 1)
  else none

/-- Matcher for `\n{3,}` → `\n\n`: a maximal run of at least three newlines is
replaced by exactly two. -/
def mTripleNL : List Char → Option (List Char × Nat)
  | c1 :: c2 :: c3 :: rest =>
    if c1 = '\n' ∧ c2 = '\n' ∧ c3 = '\n' then
      some (['\n', '\n'], 2 + (rest.takeWhile (· = '\n')).length)
    else none
  | _ => none

/-- Header-line test of the reassembly loop: containment of one of the three
section markers. -/
def isHeader (l : List Char) : Bool :=
  infixB markerRisk l || infixB markerPoint l || infixB markerAdvice l

/-- Colon normalisation applied to a detected header line: the three
`re.sub` calls of the header branch, in source order. -/
def normalizeHeaderLine (l : List Char) : List Char :=
  pySub (mHdrLine markerAdvice) (pySub (mHdrLine markerPoint) (pySub (mHdrLine markerRisk) l))

/-- Line-reassembly loop of `format_ai_response`: walk the lines, strip each,
skip empties; when a header line is seen, flush the open section followed by
one blank line and open a new section holding the normalised header line;
other lines attach to the open section, or go straight to the output when no
section is open; finally the last open section is flushed. -/
def walkLines : List (List Char) → List (List Char) → List (List Char) → List (List Char)
  | [], formatted, current => formatted ++ current
  | l :: rest, formatted, current =>
    let s := pyStrip l
    if s = [] then walkLines rest formatted current
    else if isHeader s then
      (if current = [] then walkLines rest formatted [normalizeHeaderLine s]
       else walkLines rest (formatted ++ current ++ [[]]) [normalizeHeaderLine s])
    else
      (if current = [] then walkLines rest (formatted ++ [s]) current
       else walkLines rest formatted (current ++ [s]))

/-- Embedding of `format_ai_response` (src/app.py lines 156-259), pass by
pass in source order: falsy guard; strip; paired then single thinking-tag
removal; labelled thinking-section removal (思考过程 then 推理过程);
ASCII-colon normalisation for the three markers; forced blank line between
risk-level and risk-point and between risk-point and feeding-advice; second
colon normalisation; line reassembly; collapse of newline runs of three or
more; final strip. -/
def format_ai_response (text : List Char) : List Char :=
  if text = [] then text
  else
    let t1 := pyStrip text
    let t2 := pySub mTagPair t1
    let t3 := pySub mTagSingle t2
    let t4 := pySub (mLabel (chars "思考过程")) t3
    let t5 := pySub (mLabel (chars "推理过程")) t4
    let t6 := pySub (mAsciiColon markerRisk) t5
    let t7 := pySub (mAsciiColon markerPoint) t6
    let t8 := pySub (mAsciiColon markerAdvice) t7
    let t9 := pySub (mForce markerRisk markerPoint) t8
    let t10 := pySub (mForce markerPoint markerAdvice) t9
    let t11 := pySub (mWsColon markerRisk) t10
    let t12 := pySub (mWsColon markerPoint) t11
    let t13 := pySub (mWsColon markerAdvice) t12
    let t14 := joinNL (walkLines (splitNL t13) [] [])
    let t15 := pySub mTripleNL t14
    pyStrip t15

/-- Static knowledge table `PET_KNOWLEDGE`, in source insertion order
(Python dict iteration preserves it). -/
def PET_KNOWLEDGE : List (List Char × List Char) := [
  (chars "巧克力", chars "【高危预警】含可可碱，对宠物有毒，剂量大有生命危险。"),
  (chars "葡萄", chars "【高危预警】可能导致肾衰竭，少量也危险。建议立即就医。"),
  (chars "洋葱", chars "【高危预警】破坏红细胞，引起贫血，剂量大有生命危险。"),
  (chars "木糖醇", chars "【高危预警】导致胰岛素大量分泌，引起低血糖、肝衰竭，对宠物极度危险。"),
  (chars "牛油果", chars "【中危预警】含毒性物质persin，虽然狗猫反应较小，但不建议食用。"),
  (chars "生鸡蛋", chars "【中危预警】可能含有沙门氏菌，应煮熟，长期食用生蛋白会影响生物素吸收。"),
  (chars "咖啡", chars "【高危预警】含咖啡因，可能引起中毒。"),
  (chars "茶", chars "【高危预警】含咖啡因。"),
  (chars "西瓜", chars "【低风险】少量果肉安全，但种子和瓜皮不宜食用，糖尿病宠物需谨慎。"),
  (chars "苹果", chars "【低风险】果肉安全，但果核含有氰化物，必须去除。")]

/-- Keyword loop of `get_rag_info`, with its first-match `break`: the first
table entry whose keyword occurs in the lowercased question yields the single
formatted fact. -/
def ragLoop : List (List Char × List Char) → List Char → List (List Char)
  | [], _ => []
  | (item, fact) :: rest, lq =>
    if infixB item lq then ['【' :: (item ++ '】' :: fact)] else ragLoop rest lq

/-- Embedding of `get_rag_info` (src/app.py lines 117-132). -/
def get_rag_info (question : List Char) : List Char :=
  let lq := question.map Char.toLower
  match ragLoop PET_KNOWLEDGE lq with
  | f :: _ => chars "\n参考：" ++ f
  | [] => []

/-- Caller-supplied pet profile (`PetProfile` pydantic model). -/
structure PetProfile where
  name : Option (List Char)
  type : Option (List Char)
  breed : Option (List Char)
  allergies : Option (List (List Char))
  deriving DecidableEq, Repr

/-- Base instruction of the system prompt. -/
def basePrompt : List Char :=
  chars "你是宠物营养专家。简要回答。\n重要：只输出最终答案，不要输出思考过程、推理过程或任何标签（如<thinking>、<reasoning>等）。"

/-- Fixed three-field output directive appended to every system prompt. -/
def formatDirective : List Char :=
  chars "\n格式：\n【风险等级】：[等级]\n【风险点】：[风险]\n【喂养建议】：[建议]"

/-- Python `pet_profile.name or "该宠物"`: `None` and the empty string are
falsy, so both fall back to the placeholder. -/
def petName (p : PetProfile) : List Char :=
  match p.name with
  | some n => if n = [] then chars "该宠物" else n
  | none => chars "该宠物"

/-- Python `"、".join(...)`. -/
def joinPause : List (List Char) → List Char
  | [] => []
  | [l] => l
  | l :: ls => l ++ '、' :: joinPause ls

/-- Allergy clause appended when the profile lists allergies. -/
def allergyClause (p : PetProfile) (al : List (List Char)) : List Char :=
  chars "\n过敏原：" ++ petName p ++ chars "对" ++ joinPause al ++
    chars "过敏。如食物含过敏原，标记【高危预警】，禁止喂食。"

/-- Embedding of `build_system_prompt` (src/app.py lines 74-94).  The allergy
clause is added exactly when a profile is given and its allergy list is a
non-empty list (Python truthiness: `None` and `[]` are falsy; the
`len(...) > 0` test is subsumed by non-emptiness). -/
def build_system_prompt (pet_profile : Option PetProfile) : List Char :=
  let base := basePrompt
  let base2 :=
    match pet_profile with
    | some p =>
      match p.allergies with
      | some al => if al ≠ [] then base ++ allergyClause p al else base
      | none => base
    | none => base
  base2 ++ formatDirective

/-- Wire-level event envelope emitted by the streaming pipeline; each arm is
one `data: <json>` frame of the source. -/
inductive StreamEvent where
  | status : StreamEvent
  | content : List Char → StreamEvent
  | formatted : List Char → StreamEvent
  | done : StreamEvent
  | error : List Char → StreamEvent
  deriving DecidableEq, Repr

/-- Error message of the missing-credential path. -/
def errNoKey : List Char := chars "服务器未配置 AI 服务，请联系管理员。"

/-- Error message of the client-initialisation failure path. -/
def errInit : List Char := chars "AI 客户端初始化失败，请检查配置。"

/-- Error message of the upstream-failure path. -/
def errUnavail : List Char := chars "AI 服务暂时不可用，请稍后再试。"

/-- Result of one run of the streaming pipeline: the emitted events in order,
the final `full_content_buffer`, and whether client construction and the
streaming chat-completion call were attempted. -/
structure PipelineResult where
  events : List StreamEvent
  buffer : List (List Char)
  clientConstructed : Bool
  createCalled : Bool
  deriving DecidableEq, Repr

/-- Chunk loop of the generator.  One upstream chunk is abstracted to the
`content` field extracted from its first choice delta, with `none` covering
chunks carrying no choices or only a `reasoning_content` fragment.  Falsy
content (`none`, or the empty string) is skipped; otherwise the fragment is
filtered; a fragment whose filtered form is empty is skipped entirely
(`continue` before the buffer append); otherwise one content event carrying
the filtered fragment is emitted and the raw fragment is appended to the
buffer. -/
def processChunks : List (Option (List Char)) → List StreamEvent × List (List Char)
  | [] => ([], [])
  | none :: rest => processChunks rest
  | some s :: rest =>
    if s = [] then processChunks rest
    else
      let f := filter_thinking_content s
      if f = [] then processChunks rest
      else
        let r := processChunks rest
        (StreamEvent.content f :: r.1, s :: r.2)

/-- Embedding of the generator `stream_zhipu_ai_response` (src/app.py lines
264-420).  Upstream behaviour is abstracted by: `clientWasNone` (the module
client was not yet constructed), `initFails` (construction raises),
`createFails` (the chat-completion call raises), `chunks` (the content
fragments of the streamed chunks in arrival order, up to any exception), and
`iterFails` (iteration raises after those chunks). -/
def stream_zhipu_ai_response (apiKey : Option (List Char))
    (clientWasNone initFails createFails : Bool)
    (chunks : List (Option (List Char))) (iterFails : Bool)
    (question : List Char) (pet_profile : Option PetProfile) : PipelineResult :=
  match apiKey with
  | none => ⟨[StreamEvent.error errNoKey], [], false, false⟩
  | some key =>
    if key = [] then ⟨[StreamEvent.error errNoKey], [], false, false⟩
    else if clientWasNone && initFails then
      ⟨[StreamEvent.status, StreamEvent.error errInit], [], true, false⟩
    else
      let _rag := get_rag_info question
      let _sys := build_system_prompt pet_profile
      let _full_user_prompt := question ++ _rag
      if createFails then
        ⟨[StreamEvent.status, StreamEvent.error errUnavail], [], clientWasNone, true⟩
      else
        let pc := processChunks chunks
        if iterFails then
          ⟨StreamEvent.status :: pc.1 ++ [StreamEvent.error errUnavail], pc.2,
            clientWasNone, true⟩
        else
          let tl :=
            if pc.2 ≠ [] then
              let fullText := concatAll pc.2
              let fm := format_ai_response fullText
              if fm ≠ fullText then [StreamEvent.formatted fm, StreamEvent.done]
              else [StreamEvent.done]
            else [StreamEvent.done]
          ⟨StreamEvent.status :: pc.1 ++ tl, pc.2, clientWasNone, true⟩

/-! Helper lemmas about infixes. -/

theorem infix_append_left {α : Type} {l m : List α} (x : List α) (h : l <:+: m) :
    l <:+: x ++ m :=
  h.trans (List.suffix_append x m).isInfix

theorem infix_append_right {α : Type} {l m : List α} (y : List α) (h : l <:+: m) :
    l <:+: m ++ y :=
  h.trans (List.prefix_append m y).isInfix

theorem mem_infix_joinPause : ∀ (al : List (List Char)) (a : List Char),
    a ∈ al → a <:+: joinPause al := by
  intro al
  induction al with
  | nil => intro a h; cases h
  | cons l ls ih =>
    intro a h
    cases ls with
    | nil =>
      have : a = l := by simpa using h
      subst this
      exact List.infix_refl _
    | cons m ms =>
      rcases List.mem_cons.mp h with h1 | h2
      · subst h1
        exact infix_append_right _ (List.infix_refl a)
      · have h3 := ih a h2
        exact infix_append_left l (h3.trans (List.suffix_cons '、' _).isInfix)

/-- Truthiness of `pet_profile and pet_profile.allergies` in the source. -/
def hasAllergyList : Option PetProfile → Bool
  | some p =>
    (match p.allergies with
     | some al => !al.isEmpty
     | none => false)
  | none => false

/-- C8: the system prompt carries an allergy clause exactly when the profile
lists a non-empty allergy sequence: in that case every allergy term and the
pet name (or the placeholder 该宠物 when the name is absent or empty) occur
in the output; with an empty or absent allergy list, or no profile at all,
the output is exactly the clause-free base prompt followed by the format
directive, hence contains no allergy-specific clause. -/
theorem c8_prompt_allergies (pet_profile : Option PetProfile) :
    (∀ p, pet_profile = some p → ∀ al, p.allergies = some al → al ≠ [] →
      (∀ a ∈ al, a <:+: build_system_prompt pet_profile) ∧
        petName p <:+: build_system_prompt pet_profile) ∧
    (hasAllergyList pet_profile = false →
      build_system_prompt pet_profile = basePrompt ++ formatDirective) := by
  constructor
  · intro p hp al hal hne
    subst hp
    have hb : build_system_prompt (some p) =
        basePrompt ++ (allergyClause p al ++ formatDirective) := by
      simp [build_system_prompt, hal, hne]
    constructor
    · intro a ha
      rw [hb]
      apply infix_append_left
      apply infix_append_right
      unfold allergyClause
      apply infix_append_right
      apply infix_append_left
      exact mem_infix_joinPause al a ha
    · rw [hb]
      apply infix_append_left
      apply infix_append_right
      unfold allergyClause
      apply infix_append_right
      apply infix_append_right
      apply infix_append_right
      exact infix_append_left _ (List.infix_refl _)
  · intro h
    match pet_profile with
    | none => rfl
    | some p =>
      match hal : p.allergies with
      | none => simp [build_system_prompt, hal]
      | some al =>
        simp [hasAllergyList, hal, List.isEmpty_iff] at h
        simp [build_system_prompt, hal, h]

/-- Witness for C8 at a concrete profile with one allergy. -/
theorem c8_prompt_allergies_witness :
    (chars "鸡肉") <:+:
      build_system_prompt (some ⟨some (chars "旺财"), none, none, some [chars "鸡肉"]⟩) := by
  have h := (c8_prompt_allergies
    (some ⟨some (chars "旺财"), none, none, some [chars "鸡肉"]⟩)).1
    ⟨some (chars "旺财"), none, none, some [chars "鸡肉"]⟩ rfl [chars "鸡肉"] rfl
    (by decide)
  exact h.1 (chars "鸡肉") (by simp)

/-! KnowledgeLookup. -/

theorem ragLoop_eq_find (lq : List Char) :
    ∀ tbl : List (List Char × List Char),
      ragLoop tbl lq =
        (match tbl.find? (fun p => infixB p.1 lq) with
         | some p => ['【' :: (p.1 ++ '】' :: p.2)]
         | none => []) := by
  intro tbl
  induction tbl with
  | nil => rfl
  | cons hd rest ih =>
    obtain ⟨item, fact⟩ := hd
    by_cases h : infixB item lq = true
    · simp [ragLoop, h, List.find?_cons_of_pos]
    · rw [Bool.not_eq_true] at h
      simp only [ragLoop, h, Bool.false_eq_true, if_false]
      rw [List.find?_cons_of_neg _ (by simp [h]), ih]

/-- C9: KnowledgeLookup is a pure function of the question (hence
deterministic) and first-match-only: its output is the rendering
`"\n参考：【keyword】fact"` of the first table entry, in the fixed enumeration
order of the table, whose keyword occurs in the lowercased question; when no
keyword matches, the output is the empty string. -/
theorem c9_rag_first_match (question : List Char) :
    get_rag_info question =
      (match PET_KNOWLEDGE.find? (fun p => infixB p.1 (question.map Char.toLower)) with
       | some p => chars "\n参考：" ++ '【' :: (p.1 ++ '】' :: p.2)
       | none => []) ∧
    ((∀ p ∈ PET_KNOWLEDGE, infixB p.1 (question.map Char.toLower) = false) →
      get_rag_info question = []) := by
  have hmain : get_rag_info question =
      (match PET_KNOWLEDGE.find? (fun p => infixB p.1 (question.map Char.toLower)) with
       | some p => chars "\n参考：" ++ '【' :: (p.1 ++ '】' :: p.2)
       | none => []) := by
    simp only [get_rag_info]
    rw [ragLoop_eq_find]
    cases PET_KNOWLEDGE.find? (fun p => infixB p.1 (question.map Char.toLower)) with
    | none => rfl
    | some p => rfl
  refine ⟨hmain, fun h => ?_⟩
  rw [hmain]
  have : PET_KNOWLEDGE.find? (fun p => infixB p.1 (question.map Char.toLower)) = none := by
    rw [List.find?_eq_none]
    intro p hp
    simp [h p hp]
  rw [this]

/-- Witness for C9 at a question matching no keyword. -/
theorem c9_rag_first_match_witness : get_rag_info (chars "hello") = [] :=
  (c9_rag_first_match (chars "hello")).2 (by decide)

/-! Streaming pipeline: missing credential. -/

/-- C3: with the upstream credential absent or unset (Python falsy: `None` or
the empty string), the pipeline emits exactly one event, an error event, and
neither client construction nor the chat-completion call is attempted. -/
theorem c3_missing_key (apiKey : Option (List Char))
    (clientWasNone initFails createFails : Bool) (chunks : List (Option (List Char)))
    (iterFails : Bool) (question : List Char) (pet_profile : Option PetProfile)
    (h : apiKey = none ∨ apiKey = some []) :
    stream_zhipu_ai_response apiKey clientWasNone initFails createFails chunks iterFails
        question pet_profile =
      ⟨[StreamEvent.error errNoKey], [], false, false⟩ := by
  rcases h with h | h <;> subst h <;> rfl

/-- Witness for C3 at a concrete run with an unset credential. -/
theorem c3_missing_key_witness :
    stream_zhipu_ai_response none false false false [some (chars "hi")] false
        (chars "狗能吃什么") none =
      ⟨[StreamEvent.error errNoKey], [], false, false⟩ :=
  c3_missing_key none false false false [some (chars "hi")] false (chars "狗能吃什么") none
    (Or.inl rfl)

/-! ResponseFormatter on the concrete three-marker input. -/

set_option maxRecDepth 40000 in
/-- C6: on the raw single-line input
`【风险等级】：高【风险点】：巧克力中毒【喂养建议】：禁止喂食` the formatter
output splits at newlines into five lines: the three sections in their
original order (risk level, risk point, feeding advice), each section line
starting with its marker, and one empty line — a blank line — between
consecutive sections. -/
theorem c6_format_concrete_sections :
    format_ai_response (chars "【风险等级】：高【风险点】：巧克力中毒【喂养建议】：禁止喂食") =
      chars "【风险等级】：高\n\n【风险点】：巧克力中毒\n\n【喂养建议】：禁止喂食" ∧
    splitNL (format_ai_response
        (chars "【风险等级】：高【风险点】：巧克力中毒【喂养建议】：禁止喂食")) =
      [chars "【风险等级】：高", [], chars "【风险点】：巧克力中毒", [],
        chars "【喂养建议】：禁止喂食"] ∧
    markerRisk.isPrefixOf (chars "【风险等级】：高") = true ∧
    markerPoint.isPrefixOf (chars "【风险点】：巧克力中毒") = true ∧
    markerAdvice.isPrefixOf (chars "【喂养建议】：禁止喂食") = true := by
  exact ⟨by decide, by decide, by decide, by decide, by decide⟩

/-! ThinkingFilter: idempotence.  The key fact is that one pass of the
single-tag substitution leaves a text in which no position starts a
single-tag match any more; since every paired-tag match begins with a
single-tag match, both substitutions are then the identity. -/

/-- Whether some position of the text starts a single-tag match. -/
def hasTagMatch : List Char → Bool
  | [] => false
  | c :: rest => (mTagSingle (c :: rest)).isSome || hasTagMatch rest

theorem containsWord_mono {s t : List Char} (h : s <:+: t)
    (hw : containsWord s = true) : containsWord t = true := by
  unfold containsWord at hw ⊢
  have hm : s.map Char.toLower <:+: t.map Char.toLower := List.IsInfix.map Char.toLower h
  simp only [Bool.or_eq_true, infixB_iff] at hw ⊢
  rcases hw with (h1 | h2) | h3
  · exact Or.inl (Or.inl (h1.trans hm))
  · exact Or.inl (Or.inr (h2.trans hm))
  · exact Or.inr (h3.trans hm)

theorem containsWord_false_of_suffix {s t : List Char} (h : t <:+ s)
    (hs : containsWord s = false) : containsWord t = false := by
  cases hw : containsWord t with
  | false => rfl
  | true => rw [containsWord_mono h.isInfix hw] at hs; cases hs

theorem mTagSingle_cons (c : Char) (rest : List Char) :
    mTagSingle (c :: rest) =
      (if c = '<' then
        (match splitAtCh '>' rest with
         | some (inside, _) =>
           if containsWord inside then some ([], inside.length + 1) else none
         | none => none)
      else none) := rfl

theorem mTagPair_cons (c : Char) (rest : List Char) :
    mTagPair (c :: rest) =
      (if c = '<' then
        (match splitAtCh '>' rest with
         | some (inside, after) =>
           if containsWord inside then
             (match findClose after with
              | some t => some ([], inside.length + 1 + t)
              | none => none)
           else none
         | none => none)
      else none) := rfl

theorem hasTagMatch_cons (c : Char) (rest : List Char) :
    hasTagMatch (c :: rest) = ((mTagSingle (c :: rest)).isSome || hasTagMatch rest) := rfl

theorem mTagSingle_none_of_ne {c : Char} (rest : List Char) (hc : ¬ c = '<') :
    mTagSingle (c :: rest) = none := by
  rw [mTagSingle_cons, if_neg hc]

theorem pySub_mTagSingle_gtFree : ∀ s : List Char, '>' ∉ s → pySub mTagSingle s = s := by
  intro s
  induction s with
  | nil => intro _; rfl
  | cons c rest ih =>
    intro h
    have hr : '>' ∉ rest := fun hm => h (List.mem_cons_of_mem c hm)
    have hnone : mTagSingle (c :: rest) = none := by
      by_cases hc : c = '<'
      · rw [mTagSingle_cons, if_pos hc]
        cases hsp : splitAtCh '>' rest with
        | none => rfl
        | some p =>
          exfalso
          obtain ⟨b, a⟩ := p
          have := (splitAtCh_eq '>' rest b a hsp).1
          exact hr (by rw [this]; simp)
      · exact mTagSingle_none_of_ne rest hc
    rw [pySub_cons_none hnone, ih hr]

theorem pySub_mTagSingle_seg : ∀ i : List Char, '>' ∉ i → containsWord i = false →
    ∀ a, pySub mTagSingle (i ++ '>' :: a) = i ++ '>' :: pySub mTagSingle a := by
  intro i
  induction i with
  | nil =>
    intro _ _ a
    have hnone : mTagSingle ('>' :: a) = none := mTagSingle_none_of_ne a (by decide)
    simpa using pySub_cons_none hnone
  | cons c irest ih =>
    intro hgt hw a
    have hgt2 : '>' ∉ irest := fun hm => hgt (List.mem_cons_of_mem c hm)
    have hw2 : containsWord irest = false :=
      containsWord_false_of_suffix (List.suffix_cons c irest) hw
    have hnone : mTagSingle (c :: (irest ++ '>' :: a)) = none := by
      by_cases hc : c = '<'
      · rw [mTagSingle_cons, if_pos hc, splitAtCh_append '>' irest a hgt2]
        simp [hw2]
      · exact mTagSingle_none_of_ne _ hc
    rw [List.cons_append, pySub_cons_none hnone, ih hgt2 hw2 a]
    rfl

theorem mTagSingle_some_rep : ∀ {s rep : List Char} {k : Nat},
    mTagSingle s = some (rep, k) → rep = [] := by
  intro s rep k h
  cases s with
  | nil => simp [mTagSingle] at h
  | cons c rest =>
    rw [mTagSingle_cons] at h
    by_cases hc : c = '<'
    · rw [if_pos hc] at h
      cases hsp : splitAtCh '>' rest with
      | none => rw [hsp] at h; simp at h
      | some p =>
        obtain ⟨i, a⟩ := p
        rw [hsp] at h
        by_cases hcw : containsWord i = true
        · simp [hcw] at h
          exact h.1
        · simp [hcw] at h
    · rw [if_neg hc] at h; cases h

theorem hasTagMatch_pySub_mTagSingle :
    ∀ n (s : List Char), s.length ≤ n → hasTagMatch (pySub mTagSingle s) = false := by
  intro n
  induction n with
  | zero =>
    intro s h
    have : s = [] := List.eq_nil_of_length_eq_zero (Nat.le_zero.mp h)
    subst this
    rfl
  | succ n ih =>
    intro s hlen
    cases s with
    | nil => rfl
    | cons c rest =>
      simp only [List.length_cons, Nat.succ_le_succ_iff] at hlen
      cases hm : mTagSingle (c :: rest) with
      | some p =>
        obtain ⟨rep, k⟩ := p
        have hrep : rep = [] := mTagSingle_some_rep hm
        subst hrep
        rw [pySub_cons_some hm, List.nil_append]
        exact ih (rest.drop k) (le_trans (by simp [List.length_drop]) hlen)
      | none =>
        rw [pySub_cons_none hm]
        have htail : hasTagMatch (pySub mTagSingle rest) = false := ih rest hlen
        have hhead : mTagSingle (c :: pySub mTagSingle rest) = none := by
          by_cases hc : c = '<'
          · cases hsp : splitAtCh '>' rest with
            | none =>
              rw [pySub_mTagSingle_gtFree rest (splitAtCh_none '>' rest hsp)]
              exact hm
            | some p =>
              obtain ⟨i, a⟩ := p
              obtain ⟨heq, hni⟩ := splitAtCh_eq '>' rest i a hsp
              have hwi : containsWord i = false := by
                cases hw : containsWord i with
                | false => rfl
                | true =>
                  exfalso
                  rw [mTagSingle_cons, if_pos hc, hsp] at hm
                  simp [hw] at hm
              rw [heq, pySub_mTagSingle_seg i hni hwi a]
              rw [mTagSingle_cons, if_pos hc,
                splitAtCh_append '>' i (pySub mTagSingle a) hni]
              simp [hwi]
          · exact mTagSingle_none_of_ne _ hc
        rw [hasTagMatch_cons, hhead, htail]
        rfl

theorem pySub_mTagSingle_id {z : List Char} (h : hasTagMatch z = false) :
    pySub mTagSingle z = z := by
  induction z with
  | nil => rfl
  | cons c rest ih =>
    have h2 : ((mTagSingle (c :: rest)).isSome || hasTagMatch rest) = false := h
    rw [Bool.or_eq_false_iff] at h2
    obtain ⟨ha, hb⟩ := h2
    cases hmo : mTagSingle (c :: rest) with
    | some p => rw [hmo] at ha; simp at ha
    | none => rw [pySub_cons_none hmo, ih hb]

theorem mTagPair_none_of_single {s : List Char} (h : mTagSingle s = none) :
    mTagPair s = none := by
  cases s with
  | nil => rfl
  | cons c rest =>
    rw [mTagSingle_cons] at h
    rw [mTagPair_cons]
    by_cases hc : c = '<'
    · rw [if_pos hc] at h ⊢
      cases hsp : splitAtCh '>' rest with
      | none => rfl
      | some p =>
        obtain ⟨i, a⟩ := p
        rw [hsp] at h
        cases hw : containsWord i with
        | true => simp [hw] at h
        | false => simp [hw]
    · rw [if_neg hc]

theorem pySub_mTagPair_id {z : List Char} (h : hasTagMatch z = false) :
    pySub mTagPair z = z := by
  induction z with
  | nil => rfl
  | cons c rest ih =>
    have h2 : ((mTagSingle (c :: rest)).isSome || hasTagMatch rest) = false := h
    rw [Bool.or_eq_false_iff] at h2
    obtain ⟨ha, hb⟩ := h2
    cases hmo : mTagSingle (c :: rest) with
    | some p => rw [hmo] at ha; simp at ha
    | none => rw [pySub_cons_none (mTagPair_none_of_single hmo), ih hb]

/-- C5: ThinkingFilter is idempotent — filtering a filtered text is a no-op —
and on any text containing no denylisted tag construct (no substring of the
shape `<…thinking/reasoning/redacted…>`, case-insensitively, which is exactly
a match of the single-tag pattern) it is the identity. -/
theorem c5_filter_idempotent (x : List Char) :
    filter_thinking_content (filter_thinking_content x) = filter_thinking_content x ∧
    (hasTagMatch x = false → filter_thinking_content x = x) := by
  constructor
  · by_cases hx : x = []
    · subst hx; rfl
    · have hzno : hasTagMatch (pySub mTagSingle (pySub mTagPair x)) = false :=
        hasTagMatch_pySub_mTagSingle (pySub mTagPair x).length (pySub mTagPair x) le_rfl
      have hfx : filter_thinking_content x = pySub mTagSingle (pySub mTagPair x) := by
        unfold filter_thinking_content
        rw [if_neg hx]
      rw [hfx]
      unfold filter_thinking_content
      by_cases hz0 : pySub mTagSingle (pySub mTagPair x) = []
      · rw [if_pos hz0]
      · rw [if_neg hz0, pySub_mTagPair_id hzno, pySub_mTagSingle_id hzno]
  · intro h
    by_cases hx : x = []
    · subst hx; rfl
    · unfold filter_thinking_content
      rw [if_neg hx, pySub_mTagPair_id h, pySub_mTagSingle_id h]

/-- Witness for C5 at a concrete marker-free text. -/
theorem c5_filter_idempotent_witness :
    filter_thinking_content (filter_thinking_content (chars "hello <br> world")) =
        filter_thinking_content (chars "hello <br> world") ∧
      filter_thinking_content (chars "hello <br> world") = chars "hello <br> world" :=
  ⟨(c5_filter_idempotent (chars "hello <br> world")).1,
    (c5_filter_idempotent (chars "hello <br> world")).2 (by decide)⟩

/-! Edge-whitespace and newline-run properties of the formatter output. -/

/-- Whether the text contains three or more consecutive newlines. -/
def has3NL : List Char → Bool
  | c1 :: c2 :: c3 :: rest =>
    if c1 = '\n' ∧ c2 = '\n' ∧ c3 = '\n' then true else has3NL (c2 :: c3 :: rest)
  | _ => false

/-- Whether neither end of the text carries whitespace. -/
def noEdgeWS (l : List Char) : Bool :=
  (match l.head? with
   | some c => !isWS c
   | none => true) &&
  (match l.getLast? with
   | some c => !isWS c
   | none => true)

theorem dropEndWS_cons (c : Char) (rest : List Char) :
    dropEndWS (c :: rest) =
      (if dropEndWS rest = [] && isWS c then [] else c :: dropEndWS rest) := rfl

theorem dropEndWS_head? (l : List Char) (h : dropEndWS l ≠ []) :
    (dropEndWS l).head? = l.head? := by
  cases l with
  | nil => exact absurd rfl h
  | cons c rest =>
    rw [dropEndWS_cons] at h ⊢
    by_cases hb : (dropEndWS rest = [] && isWS c) = true
    · rw [if_pos hb] at h; exact absurd rfl h
    · rw [if_neg hb]; rfl

theorem dropEndWS_last : ∀ (l : List Char) (c : Char),
    (dropEndWS l).getLast? = some c → isWS c = false := by
  intro l
  induction l with
  | nil => intro c h; cases h
  | cons a rest ih =>
    intro c h
    rw [dropEndWS_cons] at h
    by_cases hb : (dropEndWS rest = [] && isWS a) = true
    · rw [if_pos hb] at h; cases h
    · rw [if_neg hb] at h
      cases hr : dropEndWS rest with
      | nil =>
        rw [hr] at h
        have hc : c = a := by
          have : ([a] : List Char).getLast? = some a := rfl
          rw [this] at h
          exact (Option.some.inj h).symm
        subst hc
        rw [hr] at hb
        simpa using hb
      | cons d r2 =>
        rw [hr] at h
        rw [List.getLast?_cons_cons] at h
        exact ih c (by rw [hr]; exact h)

theorem dropEndWS_pre : ∀ l : List Char, dropEndWS l <+: l := by
  intro l
  induction l with
  | nil => exact List.prefix_refl _
  | cons c rest ih =>
    rw [dropEndWS_cons]
    by_cases hb : (dropEndWS rest = [] && isWS c) = true
    · rw [if_pos hb]; exact List.nil_prefix
    · rw [if_neg hb]; exact (List.prefix_cons_inj c).mpr ih

theorem pyStrip_infix_self (l : List Char) : pyStrip l <:+: l :=
  (dropEndWS_pre _).isInfix.trans (List.dropWhile_suffix isWS).isInfix

theorem dropWhile_head_false (p : Char → Bool) :
    ∀ l c rest, List.dropWhile p l = c :: rest → p c = false := by
  intro l
  induction l with
  | nil => intro c rest h; cases h
  | cons a as ih =>
    intro c rest h
    rw [List.dropWhile_cons] at h
    by_cases hp : p a = true
    · rw [if_pos hp] at h; exact ih c rest h
    · rw [if_neg hp] at h
      injection h with h1 _
      subst h1
      simpa using hp

theorem noEdgeWS_pyStrip (s : List Char) : noEdgeWS (pyStrip s) = true := by
  unfold noEdgeWS
  rw [Bool.and_eq_true]
  constructor
  · cases hh : (pyStrip s).head? with
    | none => rfl
    | some c =>
      have hne : pyStrip s ≠ [] := by
        intro h0; rw [h0] at hh; cases hh
      unfold pyStrip at hh hne
      rw [dropEndWS_head? _ hne] at hh
      cases hd : List.dropWhile isWS s with
      | nil => rw [hd] at hh; cases hh
      | cons c0 r0 =>
        rw [hd, List.head?_cons] at hh
        have hc : c0 = c := Option.some.inj hh
        subst hc
        simp [dropWhile_head_false isWS s c0 r0 hd]
  · cases hh : (pyStrip s).getLast? with
    | none => rfl
    | some c => simp [dropEndWS_last (List.dropWhile isWS s) c hh]

theorem has3NL_eq3 (c1 c2 c3 : Char) (rest : List Char) :
    has3NL (c1 :: c2 :: c3 :: rest) =
      (if c1 = '\n' ∧ c2 = '\n' ∧ c3 = '\n' then true else has3NL (c2 :: c3 :: rest)) := rfl

theorem has3NL_cons_ne {c : Char} (l : List Char) (hc : ¬ c = '\n') :
    has3NL (c :: l) = has3NL l := by
  cases l with
  | nil => rfl
  | cons c2 r =>
    cases r with
    | nil => rfl
    | cons c3 r3 =>
      rw [has3NL_eq3, if_neg]
      intro hand
      exact hc hand.1

theorem has3NL_nl_cons {l : List Char} (h : l.head? ≠ some '\n') :
    has3NL ('\n' :: l) = has3NL l := by
  cases l with
  | nil => rfl
  | cons c2 r =>
    have hc2 : ¬ c2 = '\n' := by
      intro he; exact h (by rw [List.head?_cons, he])
    cases r with
    | nil => rfl
    | cons c3 r3 =>
      rw [has3NL_eq3, if_neg]
      intro hand
      exact hc2 hand.2.1

theorem has3NL_two_nl {w : List Char} (h : w.head? ≠ some '\n') :
    has3NL ('\n' :: '\n' :: w) = has3NL w := by
  cases w with
  | nil => rfl
  | cons c r =>
    have hc : ¬ c = '\n' := by
      intro he; exact h (by rw [List.head?_cons, he])
    rw [has3NL_eq3, if_neg (by intro hand; exact hc hand.2.2)]
    exact has3NL_nl_cons (by rw [List.head?_cons]; intro he; exact hc (Option.some.inj he))

theorem has3NL_cons_of (c : Char) {l : List Char} (h : has3NL l = true) :
    has3NL (c :: l) = true := by
  cases l with
  | nil => cases h
  | cons a r =>
    cases r with
    | nil => cases h
    | cons b r2 =>
      rw [has3NL_eq3]
      by_cases hi : c = '\n' ∧ a = '\n' ∧ b = '\n'
      · rw [if_pos hi]
      · rw [if_neg hi]; exact h

theorem has3NL_append_left : ∀ u v : List Char, has3NL v = true → has3NL (u ++ v) = true := by
  intro u
  induction u with
  | nil => intro v h; exact h
  | cons c u2 ih => intro v h; exact has3NL_cons_of c (ih v h)

theorem has3NL_append_right :
    ∀ (n : Nat) (u : List Char), u.length ≤ n → has3NL u = true →
      ∀ v, has3NL (u ++ v) = true := by
  intro n
  induction n with
  | zero =>
    intro u hu h _
    have : u = [] := List.eq_nil_of_length_eq_zero (Nat.le_zero.mp hu)
    subst this; cases h
  | succ n ih =>
    intro u hu h v
    match u with
    | [] => cases h
    | [c1] => cases h
    | [c1, c2] => cases h
    | c1 :: c2 :: c3 :: r =>
      rw [has3NL_eq3] at h
      have hshape : (c1 :: c2 :: c3 :: r) ++ v = c1 :: c2 :: c3 :: (r ++ v) := rfl
      rw [hshape, has3NL_eq3]
      by_cases hi : c1 = '\n' ∧ c2 = '\n' ∧ c3 = '\n'
      · rw [if_pos hi]
      · rw [if_neg hi] at h ⊢
        have : (c2 :: c3 :: r).length ≤ n := by
          simp only [List.length_cons] at hu ⊢
          omega
        exact ih (c2 :: c3 :: r) this h v

theorem has3NL_mono {u t : List Char} (h : u <:+: t) (hu : has3NL u = true) :
    has3NL t = true := by
  obtain ⟨s1, s2, rfl⟩ := h
  rw [List.append_assoc]
  exact has3NL_append_left s1 _
    (has3NL_append_right u.length u le_rfl hu s2)

theorem mTripleNL_eq3 (c1 c2 c3 : Char) (rest : List Char) :
    mTripleNL (c1 :: c2 :: c3 :: rest) =
      (if c1 = '\n' ∧ c2 = '\n' ∧ c3 = '\n' then
        some (['\n', '\n'], 2 + (rest.takeWhile (· = '\n')).length)
      else none) := rfl

theorem mTripleNL_none_head {c : Char} (rest : List Char) (hc : ¬ c = '\n') :
    mTripleNL (c :: rest) = none := by
  cases rest with
  | nil => rfl
  | cons c2 r2 =>
    cases r2 with
    | nil => rfl
    | cons c3 r3 => rw [mTripleNL_eq3, if_neg (by intro hand; exact hc hand.1)]

theorem mTripleNL_none_second {c1 c2 : Char} (rest : List Char) (hc : ¬ c2 = '\n') :
    mTripleNL (c1 :: c2 :: rest) = none := by
  cases rest with
  | nil => rfl
  | cons c3 r3 => rw [mTripleNL_eq3, if_neg (by intro hand; exact hc hand.2.1)]

theorem mTripleNL_none_third {c1 c2 c3 : Char} (rest : List Char) (hc : ¬ c3 = '\n') :
    mTripleNL (c1 :: c2 :: c3 :: rest) = none := by
  rw [mTripleNL_eq3, if_neg (by intro hand; exact hc hand.2.2)]

theorem drop_length_takeWhile (p : Char → Bool) :
    ∀ l : List Char, l.drop (l.takeWhile p).length = l.dropWhile p := by
  intro l
  induction l with
  | nil => rfl
  | cons c rest ih =>
    rw [List.takeWhile_cons, List.dropWhile_cons]
    by_cases hp : p c = true
    · rw [if_pos hp, if_pos hp]
      simpa using ih
    · rw [if_neg hp, if_neg hp]
      rfl

theorem pySub_mTripleNL_head {w : List Char} (h : w.head? ≠ some '\n') :
    (pySub mTripleNL w).head? ≠ some '\n' := by
  cases w with
  | nil => intro hx; cases hx
  | cons c rest =>
    have hc : ¬ c = '\n' := by
      intro he; exact h (by rw [List.head?_cons, he])
    rw [pySub_cons_none (mTripleNL_none_head rest hc), List.head?_cons]
    intro he
    exact hc (Option.some.inj he)

theorem has3NL_pySub_mTripleNL :
    ∀ (n : Nat) (s : List Char), s.length ≤ n → has3NL (pySub mTripleNL s) = false := by
  intro n
  induction n with
  | zero =>
    intro s h
    have : s = [] := List.eq_nil_of_length_eq_zero (Nat.le_zero.mp h)
    subst this; rfl
  | succ n ih =>
    intro s hlen
    cases s with
    | nil => rfl
    | cons c rest =>
      simp only [List.length_cons, Nat.succ_le_succ_iff] at hlen
      by_cases hc : c = '\n'
      · subst hc
        cases rest with
        | nil => rw [pySub_cons_none (show mTripleNL ['\n'] = none from rfl)]; rfl
        | cons c2 r2 =>
          by_cases hc2 : c2 = '\n'
          · subst hc2
            cases r2 with
            | nil =>
              rw [pySub_cons_none (show mTripleNL ['\n', '\n'] = none from rfl),
                pySub_cons_none (show mTripleNL ['\n'] = none from rfl)]
              rfl
            | cons c3 r3 =>
              by_cases hc3 : c3 = '\n'
              · subst hc3
                have hm : mTripleNL ('\n' :: '\n' :: '\n' :: r3) =
                    some (['\n', '\n'], 2 + (r3.takeWhile (· = '\n')).length) := by
                  rw [mTripleNL_eq3, if_pos ⟨rfl, rfl, rfl⟩]
                rw [pySub_cons_some hm]
                have hdrop : ('\n' :: '\n' :: r3).drop (2 + (r3.takeWhile (· = '\n')).length) =
                    r3.dropWhile (· = '\n') := by
                  have : ('\n' :: '\n' :: r3).drop (2 + (r3.takeWhile (· = '\n')).length) =
                      r3.drop (r3.takeWhile (· = '\n')).length := by
                    rw [Nat.add_comm]
                    rfl
                  rw [this, drop_length_takeWhile]
                rw [hdrop]
                have hhead : (r3.dropWhile (· = '\n')).head? ≠ some '\n' := by
                  cases hw : r3.dropWhile (· = '\n') with
                  | nil => intro hx; cases hx
                  | cons d w2 =>
                    rw [List.head?_cons]
                    intro hx
                    have hd := dropWhile_head_false _ r3 d w2 hw
                    rw [Option.some.inj hx] at hd
                    simp at hd
                have hw3 : has3NL ('\n' :: '\n' :: pySub mTripleNL (r3.dropWhile (· = '\n'))) =
                    has3NL (pySub mTripleNL (r3.dropWhile (· = '\n'))) :=
                  has3NL_two_nl (pySub_mTripleNL_head hhead)
                have hlen3 : (r3.dropWhile (· = '\n')).length ≤ n := by
                  have h1 : (r3.dropWhile (· = '\n')).length ≤ r3.length :=
                    (List.dropWhile_suffix _).sublist.length_le
                  simp only [List.length_cons] at hlen
                  omega
                calc has3NL (['\n', '\n'] ++ pySub mTripleNL (r3.dropWhile (· = '\n')))
                    = has3NL (pySub mTripleNL (r3.dropWhile (· = '\n'))) := hw3
                  _ = false := ih _ hlen3
              · rw [pySub_cons_none (mTripleNL_none_third r3 hc3),
                  pySub_cons_none (mTripleNL_none_second r3 hc3),
                  pySub_cons_none (mTripleNL_none_head r3 hc3)]
                rw [has3NL_two_nl (by rw [List.head?_cons]; intro he; exact hc3 (Option.some.inj he)),
                  has3NL_cons_ne _ hc3]
                exact ih r3 (by simp only [List.length_cons] at hlen; omega)
          · rw [pySub_cons_none (mTripleNL_none_second r2 hc2),
              pySub_cons_none (mTripleNL_none_head r2 hc2)]
            rw [has3NL_nl_cons (by rw [List.head?_cons]; intro he; exact hc2 (Option.some.inj he)),
              has3NL_cons_ne _ hc2]
            exact ih r2 (by simp only [List.length_cons] at hlen; omega)
      · rw [pySub_cons_none (mTripleNL_none_head rest hc), has3NL_cons_ne _ hc]
        exact ih rest hlen

theorem format_ai_response_eq (text : List Char) (h : ¬ text = []) :
    ∃ y, format_ai_response text = pyStrip (pySub mTripleNL y) := by
  unfold format_ai_response
  rw [if_neg h]
  exact ⟨_, rfl⟩

/-- C10: for every input, the formatter output carries no leading or trailing
whitespace (trivially so for the empty input, which is returned as-is) and
never contains three or more consecutive newline characters, so section
separation inside the output is always at most one blank line. -/
theorem c10_format_edges (x : List Char) :
    noEdgeWS (format_ai_response x) = true ∧ has3NL (format_ai_response x) = false := by
  by_cases hx : x = []
  · subst hx
    exact ⟨rfl, rfl⟩
  · obtain ⟨y, hy⟩ := format_ai_response_eq x hx
    rw [hy]
    refine ⟨noEdgeWS_pyStrip _, ?_⟩
    cases hh : has3NL (pyStrip (pySub mTripleNL y)) with
    | false => rfl
    | true =>
      exfalso
      have h2 := has3NL_mono (pyStrip_infix_self (pySub mTripleNL y)) hh
      rw [has3NL_pySub_mTripleNL y.length y le_rfl] at h2
      cases h2

/-! Event-sequence shape of the pipeline. -/

/-- Terminal-only tail: exactly one done or error event and nothing after it. -/
def termOnly : List StreamEvent → Bool
  | [StreamEvent.done] => true
  | [StreamEvent.error _] => true
  | _ => false

/-- Tail after the optional status event: zero or more content events, then an
optional formatted event, then exactly one terminal event. -/
def contentPhase : List StreamEvent → Bool
  | StreamEvent.content _ :: r => contentPhase r
  | StreamEvent.formatted _ :: r => termOnly r
  | l => termOnly l

/-- Well-formed event sequence: at most one status event first, then zero or
more content events, then at most one formatted event, then exactly one
terminal event (done or error), after which nothing follows. -/
def validSeq : List StreamEvent → Bool
  | StreamEvent.status :: r => contentPhase r
  | l => contentPhase l

theorem validSeq_status (r : List StreamEvent) :
    validSeq (StreamEvent.status :: r) = contentPhase r := rfl

theorem contentPhase_content (s : List Char) (r : List StreamEvent) :
    contentPhase (StreamEvent.content s :: r) = contentPhase r := rfl

theorem processChunks_some (s : List Char) (rest : List (Option (List Char))) :
    processChunks (some s :: rest) =
      (if s = [] then processChunks rest
       else if filter_thinking_content s = [] then processChunks rest
       else (StreamEvent.content (filter_thinking_content s) :: (processChunks rest).1,
         s :: (processChunks rest).2)) := rfl

theorem contentPhase_processChunks :
    ∀ (cs : List (Option (List Char))) (t : List StreamEvent),
      contentPhase ((processChunks cs).1 ++ t) = contentPhase t := by
  intro cs
  induction cs with
  | nil => intro t; rfl
  | cons oc rest ih =>
    intro t
    cases oc with
    | none => exact ih t
    | some s =>
      rw [processChunks_some]
      by_cases hs : s = []
      · rw [if_pos hs]; exact ih t
      · rw [if_neg hs]
        by_cases hf : filter_thinking_content s = []
        · rw [if_pos hf]; exact ih t
        · rw [if_neg hf]
          show contentPhase (StreamEvent.content _ :: ((processChunks rest).1 ++ t)) = _
          rw [contentPhase_content]
          exact ih t

/-- C2: on every run of the pipeline — any credential, any upstream behaviour
including exceptions at client construction, at the streaming call, or during
iteration, any question and profile — the emitted sequence consists of at
most one status event, then zero or more content events, then at most one
formatted event, then exactly one terminal event (done or error), and no
event follows the terminal event. -/
theorem c2_event_order (apiKey : Option (List Char))
    (clientWasNone initFails createFails : Bool) (chunks : List (Option (List Char)))
    (iterFails : Bool) (question : List Char) (pet_profile : Option PetProfile) :
    validSeq (stream_zhipu_ai_response apiKey clientWasNone initFails createFails chunks
        iterFails question pet_profile).events = true := by
  cases apiKey with
  | none => rfl
  | some key =>
    simp only [stream_zhipu_ai_response]
    by_cases hk : key = []
    · rw [if_pos hk]; rfl
    · rw [if_neg hk]
      by_cases hci : (clientWasNone && initFails) = true
      · rw [if_pos hci]; rfl
      · rw [if_neg hci]
        by_cases hcf : createFails = true
        · rw [if_pos hcf]; rfl
        · rw [if_neg hcf]
          by_cases hit : iterFails = true
          · rw [if_pos hit]
            show validSeq (StreamEvent.status ::
              ((processChunks chunks).1 ++ [StreamEvent.error errUnavail])) = true
            rw [validSeq_status, contentPhase_processChunks]
            rfl
          · rw [if_neg hit]
            by_cases hb : (processChunks chunks).2 ≠ []
            · rw [if_pos hb]
              by_cases hfm : format_ai_response (concatAll (processChunks chunks).2) ≠
                  concatAll (processChunks chunks).2
              · rw [if_pos hfm]
                show validSeq (StreamEvent.status :: ((processChunks chunks).1 ++
                  [StreamEvent.formatted (format_ai_response
                    (concatAll (processChunks chunks).2)), StreamEvent.done])) = true
                rw [validSeq_status, contentPhase_processChunks]
                rfl
              · rw [if_neg hfm]
                show validSeq (StreamEvent.status ::
                  ((processChunks chunks).1 ++ [StreamEvent.done])) = true
                rw [validSeq_status, contentPhase_processChunks]
                rfl
            · rw [if_neg hb]
              show validSeq (StreamEvent.status ::
                ((processChunks chunks).1 ++ [StreamEvent.done])) = true
              rw [validSeq_status, contentPhase_processChunks]
              rfl

theorem formatted_not_mem_processChunks :
    ∀ (cs : List (Option (List Char))) (f : List Char),
      StreamEvent.formatted f ∉ (processChunks cs).1 := by
  intro cs
  induction cs with
  | nil => intro f h; cases h
  | cons oc rest ih =>
    intro f h
    cases oc with
    | none => exact ih f h
    | some s =>
      rw [processChunks_some] at h
      by_cases hs : s = []
      · rw [if_pos hs] at h; exact ih f h
      · rw [if_neg hs] at h
        by_cases hf : filter_thinking_content s = []
        · rw [if_pos hf] at h; exact ih f h
        · rw [if_neg hf] at h
          rcases List.mem_cons.mp h with h1 | h2
          · cases h1
          · exact ih f h2

/-- C7: on every run where the key check and client setup pass, the streaming
call succeeds and iteration ends without an exception, a formatted event is
emitted exactly when the accumulated buffer is non-empty and the formatter
output differs from the raw accumulated text; any emitted formatted event
carries exactly the formatter output over the accumulated text; and the last
emitted event is the done event. -/
theorem stream_success_eq (key : List Char) (clientWasNone initFails : Bool)
    (chunks : List (Option (List Char))) (question : List Char)
    (pet_profile : Option PetProfile) (hk2 : ¬ key = [])
    (hci2 : (clientWasNone && initFails) = false) :
    stream_zhipu_ai_response (some key) clientWasNone initFails false chunks false
        question pet_profile =
      ⟨StreamEvent.status :: (processChunks chunks).1 ++
        (if (processChunks chunks).2 ≠ [] then
          (if format_ai_response (concatAll (processChunks chunks).2) ≠
              concatAll (processChunks chunks).2 then
            [StreamEvent.formatted (format_ai_response (concatAll (processChunks chunks).2)),
              StreamEvent.done]
          else [StreamEvent.done])
        else [StreamEvent.done]),
        (processChunks chunks).2, clientWasNone, true⟩ := by
  simp only [stream_zhipu_ai_response]
  rw [if_neg hk2, hci2]
  rfl

theorem stream_success_events (key : List Char) (clientWasNone initFails : Bool)
    (chunks : List (Option (List Char))) (question : List Char)
    (pet_profile : Option PetProfile) (hk2 : ¬ key = [])
    (hci2 : (clientWasNone && initFails) = false) :
    (stream_zhipu_ai_response (some key) clientWasNone initFails false chunks false
        question pet_profile).events =
      StreamEvent.status :: (processChunks chunks).1 ++
        (if (processChunks chunks).2 ≠ [] then
          (if format_ai_response (concatAll (processChunks chunks).2) ≠
              concatAll (processChunks chunks).2 then
            [StreamEvent.formatted (format_ai_response (concatAll (processChunks chunks).2)),
              StreamEvent.done]
          else [StreamEvent.done])
        else [StreamEvent.done]) := by
  rw [stream_success_eq key clientWasNone initFails chunks question pet_profile hk2 hci2]

theorem stream_success_buffer (key : List Char) (clientWasNone initFails : Bool)
    (chunks : List (Option (List Char))) (question : List Char)
    (pet_profile : Option PetProfile) (hk2 : ¬ key = [])
    (hci2 : (clientWasNone && initFails) = false) :
    (stream_zhipu_ai_response (some key) clientWasNone initFails false chunks false
        question pet_profile).buffer = (processChunks chunks).2 := by
  rw [stream_success_eq key clientWasNone initFails chunks question pet_profile hk2 hci2]

theorem c7_formatted_iff (key : List Char)
    (clientWasNone initFails : Bool) (chunks : List (Option (List Char)))
    (question : List Char) (pet_profile : Option PetProfile)
    (hk2 : key ≠ []) (hci : ¬ (clientWasNone = true ∧ initFails = true)) :
    (∀ f, StreamEvent.formatted f ∈ (stream_zhipu_ai_response (some key) clientWasNone
        initFails false chunks false question pet_profile).events ↔
      ((stream_zhipu_ai_response (some key) clientWasNone initFails false chunks false
          question pet_profile).buffer ≠ [] ∧
        format_ai_response (concatAll (stream_zhipu_ai_response (some key) clientWasNone
          initFails false chunks false question pet_profile).buffer) ≠
          concatAll (stream_zhipu_ai_response (some key) clientWasNone initFails false
            chunks false question pet_profile).buffer ∧
        f = format_ai_response (concatAll (stream_zhipu_ai_response (some key)
          clientWasNone initFails false chunks false question pet_profile).buffer))) ∧
    (stream_zhipu_ai_response (some key) clientWasNone initFails false chunks false
        question pet_profile).events.getLast? = some StreamEvent.done := by
  have hci2 : (clientWasNone && initFails) = false := by
    cases hw : clientWasNone <;> cases hi : initFails <;> simp_all
  have hev := stream_success_events key clientWasNone initFails chunks question
    pet_profile hk2 hci2
  have hbuf := stream_success_buffer key clientWasNone initFails chunks question
    pet_profile hk2 hci2
  rw [hev, hbuf]
  constructor
  · intro f
    show StreamEvent.formatted f ∈ StreamEvent.status :: ((processChunks chunks).1 ++ _) ↔ _
    rw [List.mem_cons, List.mem_append]
    constructor
    · intro h
      rcases h with h0 | h1 | h2
      · cases h0
      · exact absurd h1 (formatted_not_mem_processChunks chunks f)
      · by_cases hb : (processChunks chunks).2 ≠ []
        · rw [if_pos hb] at h2
          by_cases hfm : format_ai_response (concatAll (processChunks chunks).2) ≠
              concatAll (processChunks chunks).2
          · rw [if_pos hfm] at h2
            rcases List.mem_cons.mp h2 with h3 | h4
            · refine ⟨hb, hfm, ?_⟩
              injection h3 with h5
            · cases List.mem_singleton.mp h4
          · rw [if_neg hfm] at h2
            cases List.mem_singleton.mp h2
        · rw [if_neg hb] at h2
          cases List.mem_singleton.mp h2
    · intro ⟨hb, hfm, hf⟩
      subst hf
      rw [if_pos hb, if_pos hfm]
      exact Or.inr (Or.inr (List.mem_cons_self _ _))
  · show (StreamEvent.status :: ((processChunks chunks).1 ++ _)).getLast? = _
    rw [show (StreamEvent.status :: ((processChunks chunks).1 ++
      (if (processChunks chunks).2 ≠ [] then
        (if format_ai_response (concatAll (processChunks chunks).2) ≠
            concatAll (processChunks chunks).2 then
          [StreamEvent.formatted (format_ai_response (concatAll (processChunks chunks).2)),
            StreamEvent.done]
        else [StreamEvent.done])
      else [StreamEvent.done]))) =
      (StreamEvent.status :: (processChunks chunks).1) ++
      (if (processChunks chunks).2 ≠ [] then
        (if format_ai_response (concatAll (processChunks chunks).2) ≠
            concatAll (processChunks chunks).2 then
          [StreamEvent.formatted (format_ai_response (concatAll (processChunks chunks).2)),
            StreamEvent.done]
        else [StreamEvent.done])
      else [StreamEvent.done]) from rfl]
    rw [List.getLast?_append]
    by_cases hb : (processChunks chunks).2 ≠ []
    · rw [if_pos hb]
      by_cases hfm : format_ai_response (concatAll (processChunks chunks).2) ≠
          concatAll (processChunks chunks).2
      · rw [if_pos hfm]; rfl
      · rw [if_neg hfm]; rfl
    · rw [if_neg hb]; rfl

/-- Witness for C7 at a concrete successful run whose only chunk already has
the canonical layout changed by the formatter. -/
theorem c7_formatted_iff_witness :
    StreamEvent.formatted (format_ai_response (concatAll (stream_zhipu_ai_response
        (some (chars "k")) false false false [some (chars "【风险等级】：低【风险点】：无【喂养建议】：正常")]
        false (chars "q") none).buffer)) ∈
      (stream_zhipu_ai_response (some (chars "k")) false false false
        [some (chars "【风险等级】：低【风险点】：无【喂养建议】：正常")] false (chars "q") none).events := by
  have h := (c7_formatted_iff (chars "k") false false
    [some (chars "【风险等级】：低【风险点】：无【喂养建议】：正常")] (chars "q") none
    (by decide) (by simp)).1 (format_ai_response (concatAll (stream_zhipu_ai_response
      (some (chars "k")) false false false
      [some (chars "【风险等级】：低【风险点】：无【喂养建议】：正常")] false (chars "q") none).buffer))
  exact h.mpr ⟨by decide, by decide, rfl⟩

/-! Accumulation behaviour of the chunk loop (claim C1). -/

set_option maxRecDepth 40000 in
/-- Counterexample to C1 as stated.  With the credential set and a successful
upstream run delivering one chunk whose raw fragment `<thinking>a</thinking>`
filters to the empty string, the source executes `continue` before the buffer
append, so the chunk is skipped entirely: AccumulatedAnswer stays empty
instead of receiving the raw unfiltered fragment, and it therefore differs
from the concatenation of all raw content fragments. -/
theorem c1_counterexample :
    (stream_zhipu_ai_response (some (chars "k")) false false false
        [some (chars "<thinking>a</thinking>")] false (chars "q") none).buffer = [] ∧
      concatAll ((stream_zhipu_ai_response (some (chars "k")) false false false
        [some (chars "<thinking>a</thinking>")] false (chars "q") none).buffer) ≠
        concatAll [chars "<thinking>a</thinking>"] := by
  exact ⟨by decide, by decide⟩

/-- Raw fragments kept by the chunk loop: the non-empty content fragments
whose filtered form is also non-empty. -/
def keptFragments : List (Option (List Char)) → List (List Char)
  | [] => []
  | none :: rest => keptFragments rest
  | some s :: rest =>
    if s = [] then keptFragments rest
    else if filter_thinking_content s = [] then keptFragments rest
    else s :: keptFragments rest

theorem keptFragments_some (s : List Char) (rest : List (Option (List Char))) :
    keptFragments (some s :: rest) =
      (if s = [] then keptFragments rest
       else if filter_thinking_content s = [] then keptFragments rest
       else s :: keptFragments rest) := rfl

theorem processChunks_kept (cs : List (Option (List Char))) :
    (processChunks cs).2 = keptFragments cs ∧
      (processChunks cs).1 =
        (keptFragments cs).map (fun s => StreamEvent.content (filter_thinking_content s)) := by
  induction cs with
  | nil => exact ⟨rfl, rfl⟩
  | cons oc rest ih =>
    cases oc with
    | none => exact ih
    | some s =>
      rw [processChunks_some, keptFragments_some]
      by_cases hs : s = []
      · rw [if_pos hs, if_pos hs]
        exact ih
      · rw [if_neg hs, if_neg hs]
        by_cases hf : filter_thinking_content s = []
        · rw [if_pos hf, if_pos hf]
          exact ih
        · rw [if_neg hf, if_neg hf]
          exact ⟨by rw [ih.1], by rw [List.map_cons, ih.2]⟩

/-- Content payload of an event, when it is a content event. -/
def contentPayload : StreamEvent → Option (List Char)
  | StreamEvent.content s => some s
  | _ => none

theorem filterMap_contentPayload_map_content (ls : List (List Char)) :
    (ls.map (fun s => StreamEvent.content (filter_thinking_content s))).filterMap
        contentPayload = ls.map filter_thinking_content := by
  induction ls with
  | nil => rfl
  | cons l rest ih =>
    rw [List.map_cons, List.filterMap_cons, List.map_cons]
    show filter_thinking_content l ::
      (rest.map (fun s => StreamEvent.content (filter_thinking_content s))).filterMap
        contentPayload = _
    rw [ih]

/-- C1 amended: during streaming, an upstream chunk whose extracted content
fragment becomes empty after applying ThinkingFilter is skipped entirely —
the orchestrator emits no content event for it and does not append its raw
fragment to AccumulatedAnswer either (the `continue` precedes the buffer
append).  AccumulatedAnswer is the list of raw unfiltered fragments of
exactly those chunks whose filtered fragment is non-empty, in arrival order,
and the content events carry the filtered forms of exactly those fragments. -/
theorem c1_buffer_kept (key : List Char) (clientWasNone initFails : Bool)
    (chunks : List (Option (List Char))) (iterFails : Bool) (question : List Char)
    (pet_profile : Option PetProfile) (hk2 : key ≠ [])
    (hci : ¬ (clientWasNone = true ∧ initFails = true)) :
    (stream_zhipu_ai_response (some key) clientWasNone initFails false chunks iterFails
        question pet_profile).buffer = keptFragments chunks ∧
      (stream_zhipu_ai_response (some key) clientWasNone initFails false chunks iterFails
          question pet_profile).events.filterMap contentPayload =
        (keptFragments chunks).map filter_thinking_content := by
  have hci2 : (clientWasNone && initFails) = false := by
    cases hw : clientWasNone <;> cases hi : initFails <;> simp_all
  have hkept := processChunks_kept chunks
  cases iterFails with
  | true =>
    have hres : stream_zhipu_ai_response (some key) clientWasNone initFails false chunks
        true question pet_profile =
        ⟨StreamEvent.status :: (processChunks chunks).1 ++ [StreamEvent.error errUnavail],
          (processChunks chunks).2, clientWasNone, true⟩ := by
      simp only [stream_zhipu_ai_response]
      rw [if_neg hk2, hci2]
      rfl
    rw [hres]
    refine ⟨hkept.1, ?_⟩
    show (StreamEvent.status :: ((processChunks chunks).1 ++
      [StreamEvent.error errUnavail])).filterMap contentPayload = _
    rw [List.filterMap_cons]
    show ((processChunks chunks).1 ++ [StreamEvent.error errUnavail]).filterMap
      contentPayload = _
    rw [List.filterMap_append, hkept.2, filterMap_contentPayload_map_content]
    show (keptFragments chunks).map filter_thinking_content ++ [] = _
    rw [List.append_nil]
  | false =>
    have hev := stream_success_events key clientWasNone initFails chunks question
      pet_profile hk2 hci2
    have hbuf := stream_success_buffer key clientWasNone initFails chunks question
      pet_profile hk2 hci2
    rw [hev, hbuf]
    refine ⟨hkept.1, ?_⟩
    show (StreamEvent.status :: ((processChunks chunks).1 ++ _)).filterMap
      contentPayload = _
    rw [List.filterMap_cons]
    show ((processChunks chunks).1 ++ _).filterMap contentPayload = _
    rw [List.filterMap_append, hkept.2, filterMap_contentPayload_map_content]
    by_cases hb : (processChunks chunks).2 ≠ []
    · rw [if_pos hb]
      by_cases hfm : format_ai_response (concatAll (processChunks chunks).2) ≠
          concatAll (processChunks chunks).2
      · rw [if_pos hfm]
        show (keptFragments chunks).map filter_thinking_content ++ [] = _
        rw [List.append_nil]
      · rw [if_neg hfm]
        show (keptFragments chunks).map filter_thinking_content ++ [] = _
        rw [List.append_nil]
    · rw [if_neg hb]
      show (keptFragments chunks).map filter_thinking_content ++ [] = _
      rw [List.append_nil]

set_option maxRecDepth 40000 in
/-- Witness for the amended C1 at a concrete run mixing an ordinary fragment
with one that filters to nothing. -/
theorem c1_buffer_kept_witness :
    (stream_zhipu_ai_response (some (chars "k")) false false false
        [some (chars "你好"), some (chars "<thinking>a</thinking>")] false
        (chars "q") none).buffer =
      keptFragments [some (chars "你好"), some (chars "<thinking>a</thinking>")] :=
  (c1_buffer_kept (chars "k") false false
    [some (chars "你好"), some (chars "<thinking>a</thinking>")] false (chars "q") none
    (by decide) (by simp)).1

/-! Marker-free behaviour of the formatter (claim C4). -/

theorem mTagSingle_isSome_append {u : List Char} (v : List Char)
    (h : (mTagSingle u).isSome = true) : (mTagSingle (u ++ v)).isSome = true := by
  cases u with
  | nil => rw [mTagSingle] at h; cases h
  | cons c rest =>
    rw [mTagSingle_cons] at h
    by_cases hc : c = '<'
    · rw [if_pos hc] at h
      cases hsp : splitAtCh '>' rest with
      | none => rw [hsp] at h; cases h
      | some p =>
        obtain ⟨i, a⟩ := p
        rw [hsp] at h
        cases hw : containsWord i with
        | false => simp [hw] at h
        | true =>
          obtain ⟨heq, hni⟩ := splitAtCh_eq '>' rest i a hsp
          show (mTagSingle (c :: (rest ++ v))).isSome = true
          rw [mTagSingle_cons, if_pos hc, heq]
          rw [show (i ++ '>' :: a) ++ v = i ++ '>' :: (a ++ v) by simp]
          rw [splitAtCh_append '>' i (a ++ v) hni]
          simp [hw]
    · rw [if_neg hc] at h; cases h

theorem hasTagMatch_append_right :
    ∀ u v : List Char, hasTagMatch u = true → hasTagMatch (u ++ v) = true := by
  intro u
  induction u with
  | nil => intro v h; cases h
  | cons c rest ih =>
    intro v h
    rw [hasTagMatch_cons] at h
    show hasTagMatch (c :: (rest ++ v)) = true
    rw [hasTagMatch_cons]
    rcases Bool.or_eq_true_iff.mp h with h1 | h2
    · rw [Bool.or_eq_true_iff]
      exact Or.inl (mTagSingle_isSome_append v h1)
    · rw [Bool.or_eq_true_iff]
      exact Or.inr (ih v h2)

theorem hasTagMatch_append_left :
    ∀ u v : List Char, hasTagMatch v = true → hasTagMatch (u ++ v) = true := by
  intro u
  induction u with
  | nil => intro v h; exact h
  | cons c rest ih =>
    intro v h
    show hasTagMatch (c :: (rest ++ v)) = true
    rw [hasTagMatch_cons, Bool.or_eq_true_iff]
    exact Or.inr (ih v h)

theorem hasTagMatch_false_mono {t u : List Char} (hinf : u <:+: t)
    (h : hasTagMatch t = false) : hasTagMatch u = false := by
  cases hu : hasTagMatch u with
  | false => rfl
  | true =>
    exfalso
    obtain ⟨s1, s2, rfl⟩ := hinf
    have h1 := hasTagMatch_append_left s1 (u ++ s2) (hasTagMatch_append_right u s2 hu)
    rw [← List.append_assoc] at h1
    rw [h1] at h
    cases h

/-- Generic identity lemma for a substitution whose matcher can only fire when
the given literal is a prefix of the scanned suffix. -/
theorem pySub_id_of_prefix_req (m : List Char → Option (List Char × Nat))
    (w : List Char) (hreq : ∀ s rep k, m s = some (rep, k) → w <+: s)
    (t : List Char) (h : ¬ w <:+: t) : pySub m t = t := by
  apply pySub_id_of_none
  intro u hu
  cases hm : m u with
  | none => rfl
  | some p =>
    exfalso
    obtain ⟨rep, k⟩ := p
    exact h (List.infix_iff_prefix_suffix.mpr ⟨u, hreq u rep k hm, hu⟩)

theorem mLabel_requires (lab : List Char) :
    ∀ s rep k, mLabel lab s = some (rep, k) → lab <+: s := by
  intro s rep k h
  unfold mLabel at h
  by_cases hp : lab.isPrefixOf s = true
  · exact List.isPrefixOf_iff_prefix.mp hp
  · rw [if_neg hp] at h; cases h

theorem mAsciiColon_requires (mk : List Char) :
    ∀ s rep k, mAsciiColon mk s = some (rep, k) → mk <+: s := by
  intro s rep k h
  unfold mAsciiColon at h
  by_cases hp : (mk ++ [':']).isPrefixOf s = true
  · exact (List.prefix_append mk [':']).trans ( List.isPrefixOf_iff_prefix.mp hp)
  · rw [if_neg hp] at h; cases h

theorem mForce_requires (mkA mkB : List Char) :
    ∀ s rep k, mForce mkA mkB s = some (rep, k) → mkA <+: s := by
  intro s rep k h
  unfold mForce at h
  by_cases hp : mkA.isPrefixOf s = true
  · exact List.isPrefixOf_iff_prefix.mp hp
  · rw [if_neg hp] at h; cases h

theorem mWsColon_requires (mk : List Char) :
    ∀ s rep k, mWsColon mk s = some (rep, k) → mk <+: s := by
  intro s rep k h
  unfold mWsColon at h
  by_cases hp : mk.isPrefixOf s = true
  · exact List.isPrefixOf_iff_prefix.mp hp
  · rw [if_neg hp] at h; cases h

theorem splitNL_ne_nil : ∀ s : List Char, splitNL s ≠ [] := by
  intro s
  cases s with
  | nil => intro h; cases h
  | cons c rest =>
    unfold splitNL
    by_cases hc : c = '\n'
    · rw [if_pos hc]; intro h; cases h
    · rw [if_neg hc]
      cases hs : splitNL rest with
      | nil => intro h; cases h
      | cons l ls => intro h; cases h

theorem splitNL_head_pre : ∀ (s l0 : List Char) (ls : List (List Char)),
    splitNL s = l0 :: ls → l0 <+: s := by
  intro s
  induction s with
  | nil =>
    intro l0 ls h
    rw [show splitNL [] = [[]] from rfl] at h
    injection h with h1 _
    rw [← h1]
  | cons c rest ih =>
    intro l0 ls h
    unfold splitNL at h
    by_cases hc : c = '\n'
    · rw [if_pos hc] at h
      injection h with h1 _
      rw [← h1]
      exact List.nil_prefix
    · rw [if_neg hc] at h
      cases hs : splitNL rest with
      | nil => exact absurd hs (splitNL_ne_nil rest)
      | cons m ms =>
        rw [hs] at h
        injection h with h1 _
        rw [← h1]
        exact (List.prefix_cons_inj c).mpr (ih m ms hs)

theorem infix_of_mem_splitNL : ∀ (s l : List Char), l ∈ splitNL s → l <:+: s := by
  intro s
  induction s with
  | nil =>
    intro l h
    rw [show splitNL [] = [[]] from rfl] at h
    rw [List.mem_singleton.mp h]
  | cons c rest ih =>
    intro l h
    unfold splitNL at h
    by_cases hc : c = '\n'
    · rw [if_pos hc] at h
      rcases List.mem_cons.mp h with h1 | h2
      · rw [h1]; exact List.nil_infix
      · exact (ih l h2).trans (List.suffix_cons c rest).isInfix
    · rw [if_neg hc] at h
      cases hs : splitNL rest with
      | nil => exact absurd hs (splitNL_ne_nil rest)
      | cons m ms =>
        rw [hs] at h
        rcases List.mem_cons.mp h with h1 | h2
        · rw [h1]
          exact ((List.prefix_cons_inj c).mpr (splitNL_head_pre rest m ms hs)).isInfix
        · have : l ∈ splitNL rest := by rw [hs]; exact List.mem_cons_of_mem m h2
          exact (ih l this).trans (List.suffix_cons c rest).isInfix

theorem splitNL_no_nl : ∀ (s l : List Char), l ∈ splitNL s → '\n' ∉ l := by
  intro s
  induction s with
  | nil =>
    intro l h
    rw [show splitNL [] = [[]] from rfl] at h
    rw [List.mem_singleton.mp h]
    intro hm; cases hm
  | cons c rest ih =>
    intro l h
    unfold splitNL at h
    by_cases hc : c = '\n'
    · rw [if_pos hc] at h
      rcases List.mem_cons.mp h with h1 | h2
      · rw [h1]; intro hm; cases hm
      · exact ih l h2
    · rw [if_neg hc] at h
      cases hs : splitNL rest with
      | nil => exact absurd hs (splitNL_ne_nil rest)
      | cons m ms =>
        rw [hs] at h
        rcases List.mem_cons.mp h with h1 | h2
        · rw [h1]
          intro hm
          rcases List.mem_cons.mp hm with h3 | h4
          · exact hc h3.symm
          · exact ih m (by rw [hs]; exact List.mem_cons_self m ms) h4
        · exact ih l (by rw [hs]; exact List.mem_cons_of_mem m h2)

theorem walkLines_cons (l : List Char) (rest F current : List (List Char)) :
    walkLines (l :: rest) F current =
      (if pyStrip l = [] then walkLines rest F current
       else if isHeader (pyStrip l) then
         (if current = [] then walkLines rest F [normalizeHeaderLine (pyStrip l)]
          else walkLines rest (F ++ current ++ [[]]) [normalizeHeaderLine (pyStrip l)])
       else
         (if current = [] then walkLines rest (F ++ [pyStrip l]) current
          else walkLines rest F (current ++ [pyStrip l]))) := rfl

theorem walkLines_no_headers :
    ∀ (lines : List (List Char)) (F : List (List Char)),
      (∀ l ∈ lines, isHeader (pyStrip l) = false) →
      walkLines lines F [] =
        F ++ (lines.map pyStrip).filter (fun l => decide (¬ l = [])) := by
  intro lines
  induction lines with
  | nil =>
    intro F _
    show F ++ [] = F ++ []
    rfl
  | cons l rest ih =>
    intro F h
    have hl := h l (List.mem_cons_self l rest)
    have hrest : ∀ u ∈ rest, isHeader (pyStrip u) = false :=
      fun u hu => h u (List.mem_cons_of_mem l hu)
    rw [walkLines_cons]
    by_cases he : pyStrip l = []
    · rw [if_pos he, ih F hrest, List.map_cons, List.filter_cons, he]
      simp
    · rw [if_neg he, hl]
      rw [if_neg (show ¬ (false = true) by simp)]
      rw [if_pos rfl, ih (F ++ [pyStrip l]) hrest, List.map_cons, List.filter_cons]
      rw [show (decide (¬ pyStrip l = [])) = true by simpa using he]
      rw [if_pos rfl, List.append_assoc]
      rfl

/-- Whether the text contains two consecutive newlines. -/
def has2NL : List Char → Bool
  | c1 :: c2 :: rest => if c1 = '\n' ∧ c2 = '\n' then true else has2NL (c2 :: rest)
  | _ => false

theorem has2NL_eq2 (c1 c2 : Char) (rest : List Char) :
    has2NL (c1 :: c2 :: rest) =
      (if c1 = '\n' ∧ c2 = '\n' then true else has2NL (c2 :: rest)) := rfl

theorem has2NL_cons_ne {c : Char} (w : List Char) (hc : ¬ c = '\n') :
    has2NL (c :: w) = has2NL w := by
  cases w with
  | nil => rfl
  | cons d r => rw [has2NL_eq2, if_neg (fun hand => hc hand.1)]

theorem has2NL_nlfree : ∀ l : List Char, '\n' ∉ l → has2NL l = false := by
  intro l
  induction l with
  | nil => intro _; rfl
  | cons c r ih =>
    intro h
    have hc : ¬ c = '\n' := fun he => h (by rw [he]; exact List.mem_cons_self _ _)
    rw [has2NL_cons_ne r hc]
    exact ih (fun hm => h (List.mem_cons_of_mem c hm))

theorem has2NL_append_nlfree : ∀ (l z : List Char), '\n' ∉ l →
    has2NL (l ++ z) = has2NL z := by
  intro l
  induction l with
  | nil => intro z _; rfl
  | cons c l2 ih =>
    intro z h
    have hc : ¬ c = '\n' := fun he => h (by rw [he]; exact List.mem_cons_self _ _)
    show has2NL (c :: (l2 ++ z)) = has2NL z
    rw [has2NL_cons_ne _ hc]
    exact ih z (fun hm => h (List.mem_cons_of_mem c hm))

theorem has2NL_nl_cons {w : List Char} (h : w.head? ≠ some '\n') :
    has2NL ('\n' :: w) = has2NL w := by
  cases w with
  | nil => rfl
  | cons d r =>
    have hd : ¬ d = '\n' := fun he => h (by rw [List.head?_cons, he])
    rw [has2NL_eq2, if_neg (fun hand => hd hand.2)]

theorem joinNL_head? (l : List Char) (ls : List (List Char)) (hl : l ≠ []) :
    (joinNL (l :: ls)).head? = l.head? := by
  cases ls with
  | nil => rfl
  | cons m ms =>
    show (l ++ '\n' :: joinNL (m :: ms)).head? = l.head?
    rw [List.head?_append]
    cases l with
    | nil => exact absurd rfl hl
    | cons c r => rfl

theorem has2NL_joinNL : ∀ ls : List (List Char),
    (∀ l ∈ ls, l ≠ [] ∧ '\n' ∉ l) → has2NL (joinNL ls) = false := by
  intro ls
  induction ls with
  | nil => intro _; rfl
  | cons l rest ih =>
    intro h
    obtain ⟨hl, hnl⟩ := h l (List.mem_cons_self l rest)
    cases rest with
    | nil => exact has2NL_nlfree l hnl
    | cons m ms =>
      obtain ⟨hm, _⟩ := h m (List.mem_cons_of_mem l (List.mem_cons_self m ms))
      show has2NL (l ++ '\n' :: joinNL (m :: ms)) = false
      rw [has2NL_append_nlfree l _ hnl]
      have hh : (joinNL (m :: ms)).head? ≠ some '\n' := by
        rw [joinNL_head? m ms hm]
        cases m with
        | nil => exact absurd rfl hm
        | cons c r =>
          rw [List.head?_cons]
          intro he
          have hc := Option.some.inj he
          exact (h (c :: r) (List.mem_cons_of_mem l (List.mem_cons_self _ ms))).2
            (by rw [hc]; exact List.mem_cons_self _ _)
      rw [has2NL_nl_cons hh]
      exact ih (fun u hu => h u (List.mem_cons_of_mem l hu))

theorem mTripleNL_some_has2 : ∀ {t rep : List Char} {k : Nat},
    mTripleNL t = some (rep, k) → has2NL t = true := by
  intro t rep k h
  match t with
  | [] => cases h
  | [c1] => cases h
  | [c1, c2] => cases h
  | c1 :: c2 :: c3 :: r =>
    rw [mTripleNL_eq3] at h
    by_cases hi : c1 = '\n' ∧ c2 = '\n' ∧ c3 = '\n'
    · rw [has2NL_eq2, if_pos ⟨hi.1, hi.2.1⟩]
    · rw [if_neg hi] at h; cases h

theorem has2NL_cons_of (c : Char) {l : List Char} (h : has2NL l = true) :
    has2NL (c :: l) = true := by
  cases l with
  | nil => cases h
  | cons d r =>
    rw [has2NL_eq2]
    by_cases hi : c = '\n' ∧ d = '\n'
    · rw [if_pos hi]
    · rw [if_neg hi]; exact h

theorem has2NL_suffix {u z : List Char} (hu : u <:+ z) (h : has2NL u = true) :
    has2NL z = true := by
  obtain ⟨w, rfl⟩ := hu
  induction w with
  | nil => exact h
  | cons c w2 ih => exact has2NL_cons_of c ih

theorem pySub_mTripleNL_id_of_no2 {z : List Char} (h : has2NL z = false) :
    pySub mTripleNL z = z := by
  apply pySub_id_of_none
  intro u hu
  cases hm : mTripleNL u with
  | none => rfl
  | some p =>
    exfalso
    obtain ⟨rep, k⟩ := p
    have h3 := has2NL_suffix hu (mTripleNL_some_has2 hm)
    rw [h3] at h
    cases h

theorem dropWhile_id_of_head (w : List Char)
    (h : ∀ c, w.head? = some c → isWS c = false) : List.dropWhile isWS w = w := by
  cases w with
  | nil => rfl
  | cons c r =>
    have hc := h c rfl
    rw [List.dropWhile_cons, if_neg (by simp [hc])]

theorem dropEndWS_id_of_last : ∀ w : List Char,
    (∀ c, w.getLast? = some c → isWS c = false) → dropEndWS w = w := by
  intro w
  induction w with
  | nil => intro _; rfl
  | cons c r ih =>
    intro h
    cases r with
    | nil =>
      have hc := h c rfl
      rw [dropEndWS_cons, if_neg (by simp [hc])]
      rfl
    | cons d r2 =>
      have hr : dropEndWS (d :: r2) = d :: r2 :=
        ih (fun e he => h e (by rw [List.getLast?_cons_cons]; exact he))
      rw [dropEndWS_cons, hr, if_neg (by simp)]

theorem pyStrip_id_of_ends (w : List Char)
    (hh : ∀ c, w.head? = some c → isWS c = false)
    (hl : ∀ c, w.getLast? = some c → isWS c = false) : pyStrip w = w := by
  unfold pyStrip
  rw [dropWhile_id_of_head w hh]
  exact dropEndWS_id_of_last w hl

theorem pyStrip_head_not_ws {u : List Char} {c : Char}
    (h : (pyStrip u).head? = some c) : isWS c = false := by
  have hne : pyStrip u ≠ [] := by intro h0; rw [h0] at h; cases h
  unfold pyStrip at h hne
  rw [dropEndWS_head? _ hne] at h
  cases hd : List.dropWhile isWS u with
  | nil => rw [hd] at h; cases h
  | cons c0 r0 =>
    rw [hd, List.head?_cons] at h
    rw [← Option.some.inj h]
    exact dropWhile_head_false isWS u c0 r0 hd

theorem pyStrip_last_not_ws {u : List Char} {c : Char}
    (h : (pyStrip u).getLast? = some c) : isWS c = false :=
  dropEndWS_last (List.dropWhile isWS u) c h

theorem joinNL_ne_nil (l : List Char) (ls : List (List Char)) (hl : l ≠ []) :
    joinNL (l :: ls) ≠ [] := by
  cases ls with
  | nil => exact hl
  | cons m ms =>
    show l ++ '\n' :: joinNL (m :: ms) ≠ []
    simp

theorem getLast?_cons_of_ne {a : Char} {w : List Char} (h : w ≠ []) :
    (a :: w).getLast? = w.getLast? := by
  cases w with
  | nil => exact absurd rfl h
  | cons d r => exact List.getLast?_cons_cons

theorem joinNL_head_not_ws (ls : List (List Char))
    (h : ∀ l ∈ ls, l ≠ [] ∧ (∀ c, l.head? = some c → isWS c = false)) :
    ∀ c, (joinNL ls).head? = some c → isWS c = false := by
  intro c hc
  cases ls with
  | nil => cases hc
  | cons l rest =>
    obtain ⟨hl, hh⟩ := h l (List.mem_cons_self l rest)
    rw [joinNL_head? l rest hl] at hc
    exact hh c hc

theorem joinNL_getLast_not_ws : ∀ ls : List (List Char),
    (∀ l ∈ ls, l ≠ [] ∧ (∀ c, l.getLast? = some c → isWS c = false)) →
    ∀ c, (joinNL ls).getLast? = some c → isWS c = false := by
  intro ls
  induction ls with
  | nil => intro _ c h; cases h
  | cons l rest ih =>
    intro h c hc
    cases rest with
    | nil => exact (h l (List.mem_cons_self l [])).2 c hc
    | cons m ms =>
      have hm := h m (List.mem_cons_of_mem l (List.mem_cons_self m ms))
      rw [show joinNL (l :: m :: ms) = l ++ '\n' :: joinNL (m :: ms) from rfl] at hc
      rw [List.getLast?_append] at hc
      have hne : joinNL (m :: ms) ≠ [] := joinNL_ne_nil m ms hm.1
      rw [getLast?_cons_of_ne hne] at hc
      cases hj : (joinNL (m :: ms)).getLast? with
      | none =>
        cases hjoin : joinNL (m :: ms) with
        | nil => exact absurd hjoin hne
        | cons a b =>
          rw [hjoin] at hj
          rw [List.getLast?_eq_getLast (a :: b) (by simp)] at hj
          cases hj
      | some d =>
        rw [hj] at hc
        have hd : d = c := Option.some.inj hc
        exact ih (fun u hu => h u (List.mem_cons_of_mem l hu)) c (by rw [hj, hd])

set_option maxRecDepth 40000 in
/-- Counterexample to C4 as stated.  The input `"a\n\nb"` contains none of the
three section markers, yet the formatter returns `"a\nb"`, not the
whitespace-trimmed input `"a\n\nb"`: the line-reassembly loop strips every
line and drops blank lines even in marker-free text. -/
theorem c4_counterexample :
    infixB markerRisk (chars "a\n\nb") = false ∧
    infixB markerPoint (chars "a\n\nb") = false ∧
    infixB markerAdvice (chars "a\n\nb") = false ∧
    format_ai_response (chars "a\n\nb") = chars "a\nb" ∧
    pyStrip (chars "a\n\nb") = chars "a\n\nb" ∧
    format_ai_response (chars "a\n\nb") ≠ pyStrip (chars "a\n\nb") := by
  exact ⟨by decide, by decide, by decide, by decide, by decide, by decide⟩

/-- C4 amended: for every input that contains none of the three section
markers, none of the denylisted thinking-tag constructs, and neither of the
labels 思考过程 / 推理过程, the formatter does not fail and returns the input
with outer whitespace trimmed, each line individually trimmed, and empty
lines dropped — content lines pass through otherwise unchanged, in order. -/
theorem c4_marker_free (x : List Char)
    (h1 : infixB markerRisk x = false) (h2 : infixB markerPoint x = false)
    (h3 : infixB markerAdvice x = false) (h4 : hasTagMatch x = false)
    (h5 : infixB (chars "思考过程") x = false) (h6 : infixB (chars "推理过程") x = false) :
    format_ai_response x =
      joinNL (((splitNL (pyStrip x)).map pyStrip).filter (fun l => decide (¬ l = []))) := by
  have hnR : ¬ markerRisk <:+: x := fun hcon => by
    rw [infixB_iff.mpr hcon] at h1; cases h1
  have hnP : ¬ markerPoint <:+: x := fun hcon => by
    rw [infixB_iff.mpr hcon] at h2; cases h2
  have hnA : ¬ markerAdvice <:+: x := fun hcon => by
    rw [infixB_iff.mpr hcon] at h3; cases h3
  have hnL1 : ¬ (chars "思考过程") <:+: x := fun hcon => by
    rw [infixB_iff.mpr hcon] at h5; cases h5
  have hnL2 : ¬ (chars "推理过程") <:+: x := fun hcon => by
    rw [infixB_iff.mpr hcon] at h6; cases h6
  by_cases hx : x = []
  · subst hx; rfl
  · simp only [format_ai_response]
    rw [if_neg hx]
    have ht1 : pyStrip x <:+: x := pyStrip_infix_self x
    rw [pySub_mTagPair_id (hasTagMatch_false_mono ht1 h4),
      pySub_mTagSingle_id (hasTagMatch_false_mono ht1 h4)]
    rw [pySub_id_of_prefix_req _ _ (mLabel_requires (chars "思考过程")) _
      (fun hcon => hnL1 (hcon.trans ht1))]
    rw [pySub_id_of_prefix_req _ _ (mLabel_requires (chars "推理过程")) _
      (fun hcon => hnL2 (hcon.trans ht1))]
    rw [pySub_id_of_prefix_req _ _ (mAsciiColon_requires markerRisk) _
      (fun hcon => hnR (hcon.trans ht1))]
    rw [pySub_id_of_prefix_req _ _ (mAsciiColon_requires markerPoint) _
      (fun hcon => hnP (hcon.trans ht1))]
    rw [pySub_id_of_prefix_req _ _ (mAsciiColon_requires markerAdvice) _
      (fun hcon => hnA (hcon.trans ht1))]
    rw [pySub_id_of_prefix_req _ _ (mForce_requires markerRisk markerPoint) _
      (fun hcon => hnR (hcon.trans ht1))]
    rw [pySub_id_of_prefix_req _ _ (mForce_requires markerPoint markerAdvice) _
      (fun hcon => hnP (hcon.trans ht1))]
    rw [pySub_id_of_prefix_req _ _ (mWsColon_requires markerRisk) _
      (fun hcon => hnR (hcon.trans ht1))]
    rw [pySub_id_of_prefix_req _ _ (mWsColon_requires markerPoint) _
      (fun hcon => hnP (hcon.trans ht1))]
    rw [pySub_id_of_prefix_req _ _ (mWsColon_requires markerAdvice) _
      (fun hcon => hnA (hcon.trans ht1))]
    have hlines : ∀ l ∈ splitNL (pyStrip x), isHeader (pyStrip l) = false := by
      intro l hl
      have hinf : pyStrip l <:+: x :=
        ((pyStrip_infix_self l).trans (infix_of_mem_splitNL _ l hl)).trans ht1
      unfold isHeader
      rw [Bool.or_eq_false_iff, Bool.or_eq_false_iff]
      refine ⟨⟨?_, ?_⟩, ?_⟩
      · cases hb : infixB markerRisk (pyStrip l) with
        | false => rfl
        | true => exact absurd ((infixB_iff.mp hb).trans hinf) hnR
      · cases hb : infixB markerPoint (pyStrip l) with
        | false => rfl
        | true => exact absurd ((infixB_iff.mp hb).trans hinf) hnP
      · cases hb : infixB markerAdvice (pyStrip l) with
        | false => rfl
        | true => exact absurd ((infixB_iff.mp hb).trans hinf) hnA
    rw [walkLines_no_headers (splitNL (pyStrip x)) [] hlines, List.nil_append]
    have hprops : ∀ l ∈ ((splitNL (pyStrip x)).map pyStrip).filter
        (fun l => decide (¬ l = [])),
        l ≠ [] ∧ '\n' ∉ l ∧ (∀ c, l.head? = some c → isWS c = false) ∧
          (∀ c, l.getLast? = some c → isWS c = false) := by
      intro l hl
      rw [List.mem_filter] at hl
      obtain ⟨hmem, hpred⟩ := hl
      obtain ⟨l0, hl0mem, hl0⟩ := List.mem_map.mp hmem
      have hne : l ≠ [] := of_decide_eq_true hpred
      subst hl0
      refine ⟨hne, ?_, ?_, ?_⟩
      · intro hmem2
        exact splitNL_no_nl (pyStrip x) l0 hl0mem
          ((pyStrip_infix_self l0).sublist.subset hmem2)
      · intro c hc; exact pyStrip_head_not_ws hc
      · intro c hc; exact pyStrip_last_not_ws hc
    rw [pySub_mTripleNL_id_of_no2 (has2NL_joinNL _
      (fun l hl => ⟨(hprops l hl).1, (hprops l hl).2.1⟩))]
    exact pyStrip_id_of_ends _
      (joinNL_head_not_ws _ (fun l hl => ⟨(hprops l hl).1, (hprops l hl).2.2.1⟩))
      (joinNL_getLast_not_ws _ (fun l hl => ⟨(hprops l hl).1, (hprops l hl).2.2.2⟩))

set_option maxRecDepth 40000 in
/-- Witness for the amended C4 at a concrete marker-free input with inner
blank lines and per-line whitespace. -/
theorem c4_marker_free_witness :
    format_ai_response (chars " 你好 \n\n 宠物 ") =
      joinNL (((splitNL (pyStrip (chars " 你好 \n\n 宠物 "))).map pyStrip).filter
        (fun l => decide (¬ l = []))) :=
  c4_marker_free (chars " 你好 \n\n 宠物 ") (by decide) (by decide) (by decide)
    (by decide) (by decide) (by decide)

end PetBack
